import Mathlib

/-!
# xhanalib: a verification development

A shallow embedding of the utility functions of `include/xhanalib.h`
(`count_digits`, `deserialize_key_value`, `random_number_of_length_n`,
`number_as_binary`, `random_string_of_length_n`,
`random_integer_from_range_x_to_y`, `random_real_from_range_x_to_y`,
`equal_to_n_decimal_places`, `get_current_timestamp`, `to_string`, `log_once`)
together with theorems about them.

Conventions of the embedding:
* a `std::string` is a list of characters (`Str`);
* `std::string::npos` is `none` in an `Option Nat`;
* a `std::map<std::string, std::string>` is an association list whose keys are
  pairwise distinct, kept in insertion order; it is observed through `map_find`,
  `map_contains` and `map_size`;
* a `while` loop whose trip count is not syntactically bounded is a function
  with a fuel argument that returns `none` when the fuel is used up; the entry
  point supplies a fuel that the theorems show to be enough;
* the random engine is an explicit list of the values that successive calls
  of `pick(rg)` will return;
* a class of the standard library that a function only passes values to and
  from (a distribution, the conversion to local time) is an argument of the
  function;
* the clock reading, the static variables and the global locale are explicit
  arguments and states;
* a finite floating-point value is an integer multiple of `2^-unit_exp`, given
  by its integer factor, and the conversion to `float` rounds to 24 bits.
-/

namespace xhanalib

/-! ## Strings -/

/-- A `std::string`: a finite sequence of characters. -/
abbrev Str := List Char

/-- The call `s.find(ch, pos)`: the least index `i ≥ pos` with `s[i] = ch`,
or `none` (for `npos`) when there is no such index. -/
def find (s : Str) (ch : Char) (pos : Nat) : Option Nat :=
  let i := (s.drop pos).indexOf ch
  if i < (s.drop pos).length then some (pos + i) else none

/-- The call `s.substr(pos, count)`, where `count = none` stands for `npos`.
The standard function throws when `pos > s.size()`; every call made by
`deserialize_key_value` has `pos ≤ s.size()` (see `find_lt_length`). -/
def substr (s : Str) (pos : Nat) (count : Option Nat) : Str :=
  match count with
  | none => s.drop pos
  | some n => (s.drop pos).take n

/-! ## The output map -/

/-- A `std::map<std::string, std::string>`, as an association list. -/
abbrev StrMap := List (Str × Str)

/-- The test `m.count(key) != 0`. -/
def map_contains (m : StrMap) (key : Str) : Bool :=
  m.any (fun p => p.1 == key)

/-- The lookup `m.find(key)`, with the mapped value when the key is present. -/
def map_find (m : StrMap) (key : Str) : Option Str :=
  m.lookup key

/-- The call `m.size()`. -/
def map_size (m : StrMap) : Nat :=
  m.length

/-- The call `m.emplace(key, value)`: the pair is inserted only when the key
is absent; the boolean is the `second` component of the returned pair. -/
def map_emplace (m : StrMap) (key value : Str) : StrMap × Bool :=
  if map_contains m key then (m, false) else (m ++ [(key, value)], true)

/-! ## `deserialize_key_value` -/

/-- The `while (begin < in_str.size())` loop of `deserialize_key_value`.
The first argument is the fuel, the second the variable `begin`. The result is
the returned boolean together with the final state of `out_map`. -/
def deserialize_key_value_loop (in_str : Str) (element_sep item_sep : Char) :
    Nat → Nat → StrMap → Option (Bool × StrMap)
  | 0, _, _ => none
  | fuel + 1, begin_, out_map =>
    if begin_ < in_str.length then
      -- Search key
      match find in_str element_sep begin_ with
      | none => some (false, out_map)
      | some end_ =>
        let key := substr in_str begin_ (some (end_ - begin_))
        let begin1 := end_ + 1
        -- Search value
        let end2 := find in_str item_sep begin1
        let value := substr in_str begin1 (end2.map (fun e => e - begin1))
        let begin2 := match end2 with
          | none => in_str.length
          | some e => e + 1
        -- Store key-value
        let emplaceResult := map_emplace out_map key value
        if !emplaceResult.2 then some (false, emplaceResult.1)
        else deserialize_key_value_loop in_str element_sep item_sep fuel begin2 emplaceResult.1
    else some (true, out_map)

/-- The function `deserialize_key_value(in_str, element_sep, item_sep, out_map)`.
Every iteration advances `begin` by at least one, so `in_str.size() + 1`
iterations are enough. -/
def deserialize_key_value (in_str : Str) (element_sep item_sep : Char)
    (out_map : StrMap) : Option (Bool × StrMap) :=
  deserialize_key_value_loop in_str element_sep item_sep (in_str.length + 1) 0 out_map

/-- The input `k1 es v1 is k2 es v2 is ... kn es vn`: the pairs joined with
`element_sep` inside a pair and `item_sep` between pairs. -/
def join_pairs (element_sep item_sep : Char) : List (Str × Str) → Str
  | [] => []
  | [p] => p.1 ++ element_sep :: p.2
  | p :: q :: ps => p.1 ++ element_sep :: (p.2 ++ item_sep :: join_pairs element_sep item_sep (q :: ps))

/-- The input text `k1 es v1 is ... kn es vn is`: every pair is followed by
an `item_sep`. -/
def join_items (element_sep item_sep : Char) : List (Str × Str) → Str
  | [] => []
  | p :: ps => p.1 ++ element_sep :: (p.2 ++ item_sep :: join_items element_sep item_sep ps)

/-- Every key is free of `element_sep` and every value free of `item_sep`. -/
def well_formed_pairs (element_sep item_sep : Char) (ps : List (Str × Str)) : Prop :=
  ∀ p ∈ ps, element_sep ∉ p.1 ∧ item_sep ∉ p.2

instance (element_sep item_sep : Char) (ps : List (Str × Str)) :
    Decidable (well_formed_pairs element_sep item_sep ps) :=
  inferInstanceAs (Decidable (∀ p ∈ ps, element_sep ∉ p.1 ∧ item_sep ∉ p.2))

/-- What one run of the scanner does on the unread part of the input,
as a relation between the unread part, the map before, and the outcome. It is
tied to the code by `loop_of_scan`. -/
inductive Scan (es is : Char) : Str → StrMap → Bool × StrMap → Prop
  | done (m : StrMap) : Scan es is [] m (true, m)
  | malformed (rest : Str) (m : StrMap) :
      rest ≠ [] → es ∉ rest → Scan es is rest m (false, m)
  | duplicate (k t : Str) (m : StrMap) :
      es ∉ k → map_contains m k = true → Scan es is (k ++ es :: t) m (false, m)
  | last (k v : Str) (m : StrMap) :
      es ∉ k → is ∉ v → map_contains m k = false →
      Scan es is (k ++ es :: v) m (true, m ++ [(k, v)])
  | more (k v t : Str) (m : StrMap) (r : Bool × StrMap) :
      es ∉ k → is ∉ v → map_contains m k = false →
      Scan es is t (m ++ [(k, v)]) r →
      Scan es is (k ++ es :: (v ++ is :: t)) m r

/-! ## `count_digits` -/

/-- The loop `while (number != 0) { number = number / 10; count++; }` of
`count_digits`; the division of C++ truncates toward zero. The first argument
is the fuel. -/
def count_digits_loop : Nat → Int → Int → Option Int
  | 0, _, _ => none
  | fuel + 1, number, count =>
    if number ≠ 0 then count_digits_loop fuel (number.tdiv 10) (count + 1)
    else some count

/-- The function `count_digits(number)`. Each iteration makes `|number|`
smaller, so `|number| + 1` iterations are enough. The counter has the type of
the argument; it stays below 20 for every type of at most 64 bits. -/
def count_digits (number : Int) : Option Int :=
  count_digits_loop (number.natAbs + 1) number 0

/-! ## Integer types -/

/-- What the templates use of their integer type parameter `T1`: `sizeof(T1)`,
whether the type is signed, and whether it is one of the character types
`char`, `signed char`, `unsigned char`, for which `operator>>` of an input
stream reads one character instead of a decimal number. -/
structure IntType where
  size_of : Nat
  is_signed : Bool
  is_char : Bool
  deriving DecidableEq, Repr

/-- The number of bits `sizeof(T1) * 8`. -/
def IntType.bits (T : IntType) : Nat := T.size_of * 8

/-- The value `std::numeric_limits<T1>::max()`. -/
def IntType.max (T : IntType) : Int :=
  if T.is_signed then 2 ^ (T.bits - 1) - 1 else 2 ^ T.bits - 1

/-- The type `int` (32 bits). -/
def int32 : IntType := { size_of := 4, is_signed := true, is_char := false }

/-- The type `size_t` (64 bits). -/
def size_t64 : IntType := { size_of := 8, is_signed := false, is_char := false }

/-- The type `unsigned char`. -/
def unsigned_char : IntType := { size_of := 1, is_signed := false, is_char := true }

/-- The type `signed char`. -/
def signed_char : IntType := { size_of := 1, is_signed := true, is_char := true }

/-! ## `random_number_of_length_n` -/

/-- How a run of a generator can end without a value. -/
inductive Fault where
  /-- The exception `std::out_of_range` was thrown. -/
  | out_of_range
  /-- The supplied random picks ended before the generation was complete. -/
  | picks_exhausted
  /-- A string was indexed outside its bounds. -/
  | bad_index
  /-- A fuelled loop used up its fuel. -/
  | out_of_fuel
  /-- The exception `std::length_error` was thrown. -/
  | length_error
  /-- The result of an operation on a signed integer is outside its type. -/
  | signed_overflow
  deriving DecidableEq, Repr

deriving instance DecidableEq for Except

/-- The table `dist_chars` of `random_number_of_length_n`. -/
def dist_chars : Str := "1234567890".toList

/-- The loop `do { s = dist_chars[pick(rg)]; } while (s == "0");` that draws the
leading digit. It returns the one-character string and the unused picks. The
distribution draws from `0 .. 9`; a pick that is not an index of the table ends
the run with `bad_index`. -/
def leading_digit : List Nat → Except Fault (Str × List Nat)
  | [] => .error .picks_exhausted
  | p :: picks =>
    match dist_chars[p]? with
    | none => .error .bad_index
    | some c =>
      let s : Str := [c]
      if s = "0".toList then leading_digit picks else .ok (s, picks)

/-- The loop `while (length_of_rndstring--)` of `random_number_of_length_n`.
The second argument is the value of `length_of_rndstring` before the test, so
that it is `n` inside the body when the argument is `n + 1`. -/
def random_digits_loop (length_of_number : Nat) : Nat → Str → List Nat → Except Fault Str
  | 0, s, _ => .ok s
  | n + 1, s, picks =>
    -- Need to skip 0 if it is the first one
    if length_of_number - 1 = n then
      match leading_digit picks with
      | .error e => .error e
      | .ok (s1, picks1) => random_digits_loop length_of_number n s1 picks1
    else
      match picks with
      | [] => .error .picks_exhausted
      | p :: picks1 =>
        match dist_chars[p]? with
        | none => .error .bad_index
        | some c => random_digits_loop length_of_number n (s ++ [c]) picks1

/-- The number denoted by a string of decimal digits. -/
def decimal_value (s : Str) : Nat :=
  s.foldl (fun acc c => acc * 10 + (c.toNat - 48)) 0

/-- The extraction `ss_for_num >> return_num` from a stream holding `s`, for a
string without leading white space or sign. For a character type the
extraction stores the first character. For the other integer types it reads the
leading decimal digits and stores their value, or `max()` when the value does
not fit. The variable holds 0 before the extraction and keeps it when nothing
can be read. -/
def stream_extract (T : IntType) (s : Str) : Int :=
  if T.is_char then
    match s with
    | [] => 0
    | c :: _ => (c.toNat : Int)
  else
    let v : Int := (decimal_value (s.takeWhile Char.isDigit) : Int)
    if v > T.max then T.max else v

/-- The function `random_number_of_length_n<T1>(length_of_number)`, where
`picks` lists the values that the successive calls of `pick(rg)` return. The
call `s.reserve(length_of_rndstring)` is reached with a length below the number
of digits of `max()`, which is below `std::string::max_size()`, and has no
effect on the result. -/
def random_number_of_length_n (T : IntType) (length_of_number : Nat) (picks : List Nat) :
    Except Fault Int :=
  match count_digits T.max with
  | none => .error .out_of_fuel
  | some max_digits_of_type =>
    if max_digits_of_type > (length_of_number : Int) ∧ length_of_number > 0 then
      match random_digits_loop length_of_number length_of_number [] picks with
      | .error e => .error e
      | .ok s => .ok (stream_extract T s)
    else .error .out_of_range

/-- The character of the decimal digit `d`. -/
def digit_char (d : Nat) : Char := Char.ofNat (48 + d)

/-- The index in `dist_chars` of the decimal digit `d`. -/
def pick_of_digit (d : Nat) : Nat := (d + 9) % 10

/-- The picks on which `random_number_of_length_n` builds the decimal digits of
`v`, the most significant first. -/
def picks_of_number (v : Nat) : List Nat :=
  (Nat.digits 10 v).reverse.map pick_of_digit

/-- A string of decimal digits of length `len` whose first digit is not `0`. -/
def is_number_string (len : Nat) (s : Str) : Prop :=
  s.length = len ∧ (∀ c ∈ s, c ∈ dist_chars) ∧ ∃ c rest, s = c :: rest ∧ c ≠ '0'

/-! ## `number_as_binary` -/

/-- The character `'0' + bit` for `bit = (num >> i) & 1`. -/
def bit_char (num : Int) (i : Nat) : Char :=
  Char.ofNat (48 + ((num >>> i) % 2).toNat)

/-- The loop `for (int i = size - 1; i >= 0; i--)` of `number_as_binary`, which
stores `'0' + bit` at `buffer[size - i - 1]`. The loop variable is `i` when the
third argument is `i + 1`, and the loop is over when it is 0. -/
def number_as_binary_loop (num : Int) (size : Nat) : Nat → List Char → List Char
  | 0, buffer => buffer
  | i + 1, buffer =>
    number_as_binary_loop num size i (buffer.set (size - i - 1) (bit_char num i))

/-- The C string that starts at the beginning of a buffer: the characters
before the first null character. -/
def c_str (buffer : List Char) : Str :=
  buffer.takeWhile (fun c => c != Char.ofNat 0)

/-- The function `number_as_binary<T1>(num, shorten)`. The argument `buffer` is
the content of the static array of `sizeof(num) * 8 + 1` characters when the
call starts; the result is the C string that the returned pointer designates
when the call returns. -/
def number_as_binary (T : IntType) (num : Int) (shorten : Bool) (buffer : List Char) : Str :=
  let size := T.size_of * 8
  if shorten then
    let size := size / 2
    let buffer := number_as_binary_loop num size size buffer
    c_str (buffer.set size (Char.ofNat 0))
  else
    let buffer := number_as_binary_loop num size size buffer
    c_str (buffer.set size (Char.ofNat 0))

/-- The content of the static buffer of `number_as_binary<T1>` before the
first call: `sizeof(T1) * 8 + 1` null characters. -/
def fresh_buffer (T : IntType) : List Char :=
  List.replicate (T.size_of * 8 + 1) (Char.ofNat 0)

/-- The number that a string of `0` and `1` denotes in base 2, the first
character being the most significant. -/
def binary_value (s : Str) : Nat :=
  s.foldl (fun acc c => acc * 2 + (c.toNat - 48)) 0

/-- The bits `n-1, ..., 0` of `num` as characters, the most significant
first: the string that the loop of `number_as_binary` is shown to write. -/
def msb_first_bits (num : Int) : Nat → Str
  | 0 => []
  | n + 1 => bit_char num n :: msb_first_bits num n

/-! ## `random_string_of_length_n` -/

/-- The upper bound `dist_chars.length() - 1` of the range of `pick`, computed
in the unsigned 64-bit arithmetic of `std::string::size_type`. -/
def pick_upper_bound (dist_chars : Str) : Nat :=
  (dist_chars.length + 2 ^ 64 - 1) % 2 ^ 64

/-- The access `s[pos]` of a `const std::string`: the character at `pos` when
`pos < size()`, and the null character that ends the string when
`pos == size()`; beyond that the access is undefined. -/
def string_at (s : Str) (pos : Nat) : Except Fault Char :=
  match s[pos]? with
  | some c => .ok c
  | none => if pos = s.length then .ok (Char.ofNat 0) else .error .bad_index

/-- The loop `while (length_of_rndstring--) { s += dist_chars[pick(rg)]; }` of
`random_string_of_length_n`. The second argument is the value of
`length_of_rndstring` before the test. -/
def random_string_loop (dist_chars : Str) : Nat → Str → List Nat → Except Fault Str
  | 0, s, _ => .ok s
  | n + 1, s, picks =>
    match picks with
    | [] => .error .picks_exhausted
    | p :: picks1 =>
      match string_at dist_chars p with
      | .error e => .error e
      | .ok c => random_string_loop dist_chars n (s ++ [c]) picks1

/-- The function `random_string_of_length_n(length_of_rndstring, dist_chars)`,
where `picks` lists the values that the successive calls of `pick(rg)` return;
the distribution draws them from `0 .. pick_upper_bound dist_chars`. The
argument `max_size` is the value of `std::string::max_size()`: the call
`s.reserve(length_of_rndstring)` throws `std::length_error` for a greater
length, before any pick is drawn. Memory is taken to be available for every
length up to `max_size`. -/
def random_string_of_length_n (max_size : Nat) (length_of_rndstring : Nat) (dist_chars : Str)
    (picks : List Nat) : Except Fault Str :=
  let s : Str := []
  if max_size < length_of_rndstring then .error .length_error
  else random_string_loop dist_chars length_of_rndstring s picks

/-! ## `random_integer_from_range_x_to_y` and `random_real_from_range_x_to_y` -/

/-- What the C++ standard guarantees of `std::uniform_int_distribution<T1>`
constructed with `(a, b)`, `a <= b`: every value it produces lies in `[a, b]`.
The distribution is a function of its two bounds and of the state of the
engine it is called with. -/
def uniform_int_contract (distribution : Int → Int → Nat → Int) : Prop :=
  ∀ a b gen, a ≤ b → a ≤ distribution a b gen ∧ distribution a b gen ≤ b

/-- The function `random_integer_from_range_x_to_y(lower_boundary,
upper_boundary)`. The library class `std::uniform_int_distribution` is the
argument `distribution`, and `rd` is the value of `rd()` that seeds the
engine. -/
def random_integer_from_range_x_to_y (distribution : Int → Int → Nat → Int) (rd : Nat)
    (lower_boundary upper_boundary : Int) : Int :=
  let gen := rd
  let result_num := distribution lower_boundary upper_boundary gen
  result_num

/-- A distribution that meets `uniform_int_contract`, for evaluation. -/
def sample_int_distribution (a b : Int) (gen : Nat) : Int :=
  a + (gen : Int) % (b - a + 1)

/-- The number of binary digits of a natural number; the first argument is
fuel, and the number itself is enough. -/
def bit_length : Nat → Nat → Nat
  | 0, _ => 0
  | fuel + 1, a => if a = 0 then 0 else bit_length fuel (a / 2) + 1

/-- A value of a floating-point type. A finite value is an integer multiple
of `2^-unit_exp` and is given by its integer factor; the other values are the
two infinities and the value that is not a number. -/
inductive FpValue where
  | finite (x : Int)
  | infinite (negative : Bool)
  | nan
  deriving DecidableEq, Repr

/-- The conversion of a finite value to `float`, rounding to the nearest value
with a significand of 24 bits, ties to even. The argument is an integer
multiple of `2^-unit_exp`, given by its integer factor, and a finite result is
on the same scale. Below the normal range the spacing of `float` is `2^-149`.
A value whose rounding reaches `2^128` is beyond the largest `float` and gives
the infinity of its sign. -/
def round_to_float (unit_exp : Nat) (x : Int) : FpValue :=
  let a := x.natAbs
  let shift := max (bit_length a a - 24) (unit_exp - 149)
  let q := a / 2 ^ shift
  let r := a % 2 ^ shift
  let m :=
    if 2 * r < 2 ^ shift then q
    else if 2 ^ shift < 2 * r then q + 1
    else if q % 2 = 0 then q else q + 1
  if 2 ^ (128 + unit_exp) ≤ m * 2 ^ shift then .infinite (decide (x < 0))
  else .finite ((if x < 0 then -1 else 1) * ((m * 2 ^ shift : Nat) : Int))

/-- The comparison `a < b` of two floating-point values; it is false when one
of them is not a number. -/
def fp_lt : FpValue → FpValue → Bool
  | .finite x, .finite y => decide (x < y)
  | .finite _, .infinite negative => !negative
  | .infinite negative, .finite _ => negative
  | .infinite negative1, .infinite negative2 => negative1 && !negative2
  | _, _ => false

/-- The function `random_real_from_range_x_to_y(lower_boundary,
upper_boundary)` for a floating-point type `T1` whose values are written as
integer multiples of `2^-unit_exp`. The library class
`std::uniform_real_distribution<T1>` is the argument `distribution`. The drawn
value is stored in the local `float result_num`, and that is what is
returned, converted back to `T1` without change. -/
def random_real_from_range_x_to_y (unit_exp : Nat) (distribution : Int → Int → Nat → Int)
    (rd : Nat) (lower_boundary upper_boundary : Int) : FpValue :=
  let gen := rd
  let result_num := round_to_float unit_exp (distribution lower_boundary upper_boundary gen)
  result_num

/-! ## `equal_to_n_decimal_places` -/

/-- The part of the state of a `std::ostringstream` that the library uses: the
characters written, the field width and the fill character. -/
structure OStream where
  buf : Str
  width : Nat
  fill : Char

/-- A default-constructed stream: empty, width 0, fill character space. -/
def OStream.init : OStream := { buf := [], width := 0, fill := Char.ofNat 32 }

/-- Padding on the left up to a field width, as for the default adjustment. -/
def pad_left (width : Nat) (fill : Char) (s : Str) : Str :=
  List.replicate (width - s.length) fill ++ s

/-- A formatted insertion of the text `s`: the text is padded to the field
width, and the width is reset to 0. -/
def OStream.write (os : OStream) (s : Str) : OStream :=
  { os with buf := os.buf ++ pad_left os.width os.fill s, width := 0 }

/-- The manipulator `std::setw(n)`. -/
def OStream.setw (os : OStream) (n : Nat) : OStream := { os with width := n }

/-- The manipulator `std::setfill(c)`. -/
def OStream.setfill (os : OStream) (c : Char) : OStream := { os with fill := c }

/-- The decimal text of an integer, as `operator<<` writes it in the classic
locale. -/
def int_to_string (z : Int) : Str :=
  if z < 0 then '-' :: Nat.toDigits 10 z.natAbs else Nat.toDigits 10 z.toNat

/-- The insertion `os << z` of an integer. -/
def OStream.put_int (os : OStream) (z : Int) : OStream :=
  os.write (int_to_string z)

/-! ## `get_current_timestamp` -/

/-- The fields of `struct tm` that the conversion `%T` reads. -/
structure Tm where
  tm_hour : Nat
  tm_min : Nat
  tm_sec : Nat
  deriving DecidableEq, Repr

/-- The conversions `%H`, `%M` and `%S`: a decimal number of two digits. -/
def two_digits (n : Nat) : Str :=
  pad_left 2 '0' (Nat.toDigits 10 n)

/-- The insertion `stream << std::put_time(&tm, "%T")`, where `%T` stands for
`%H:%M:%S`. -/
def OStream.put_time_T (os : OStream) (tm : Tm) : OStream :=
  { os with buf := os.buf ++
      (two_digits tm.tm_hour ++ ':' :: (two_digits tm.tm_min ++ ':' :: two_digits tm.tm_sec)) }

/-- The function `get_current_timestamp()`. The clock reading `clock::now()`
is the argument `now`, a count of clock ticks since the epoch, of which there
are `ticks_per_ms` in a millisecond; `localtime` is the conversion of
`std::localtime` from seconds since the epoch to local time. The conversions
`to_time_t` and `duration_cast`, and the operator `%`, truncate toward zero. -/
def get_current_timestamp (localtime : Int → Tm) (ticks_per_ms : Nat) (now : Int) : Str :=
  let current_time_point := now
  let current_time := current_time_point.tdiv ((ticks_per_ms : Int) * 1000)
  let current_localtime := localtime current_time
  let current_time_since_epoch := current_time_point
  let current_milliseconds := (current_time_since_epoch.tdiv (ticks_per_ms : Int)).tmod 1000
  let stream := OStream.init
  let stream := stream.put_time_T current_localtime
  let stream := stream.write ".".toList
  let stream := (stream.setw 3).setfill '0'
  let stream := stream.put_int current_milliseconds
  stream.buf

/-- The conversion `std::localtime` of a time zone that keeps one offset from
UTC: the time of day of `t + utc_offset` seconds. -/
def fixed_offset_localtime (utc_offset : Int) (t : Int) : Tm :=
  let local_seconds := t + utc_offset
  { tm_hour := (local_seconds / 3600 % 24).toNat,
    tm_min := (local_seconds / 60 % 60).toNat,
    tm_sec := (local_seconds % 60).toNat }

/-! ## `log_once` -/

/-- An instantiation `log_once<T1, T2, T3>` of the function template, by the
names of its three type arguments. Each instantiation has its own static
variable `hasBeenCalled`. -/
structure Instantiation where
  t1 : String
  t2 : String
  t3 : String
  deriving DecidableEq, Repr

/-- The state that `log_once` reads and writes: the static `hasBeenCalled` of
every instantiation, and the characters written to `std::cout`. -/
structure LogState where
  hasBeenCalled : Instantiation → Bool
  cout : Str

/-- The state when the process starts: every latch is false. -/
def LogState.initial : LogState := { hasBeenCalled := fun _ => false, cout := [] }

/-- A call `log_once(msg, val1, val2)` of one instantiation; the three
arguments are given by the text that `operator<<` writes for them. -/
structure LogCall where
  inst : Instantiation
  msg : Str
  val1 : Str
  val2 : Str

/-- The line `msg:[val1] [val2]` that a call writes when it writes. -/
def LogCall.line (c : LogCall) : Str :=
  c.msg ++ ":[".toList ++ c.val1 ++ "] ".toList ++ "[".toList ++ c.val2 ++ [']', Char.ofNat 10]

/-- The function `log_once(msg, val1, val2)` as a step on the state. -/
def log_once (st : LogState) (c : LogCall) : LogState :=
  let st1 : LogState :=
    if !st.hasBeenCalled c.inst then { st with cout := st.cout ++ c.line } else st
  { st1 with hasBeenCalled := fun i => if i = c.inst then true else st1.hasBeenCalled i }

/-- A sequence of calls of `log_once`, in order. -/
def log_once_calls (st : LogState) (calls : List LogCall) : LogState :=
  calls.foldl log_once st

/-! ## `to_string` -/

/-- The thousands separator put into a reversed string of digits: the groups
are counted from the least significant digit. The second argument lists the
group sizes still to come and the third is the size of the group before. The
first argument is fuel, and the number of digits is enough. -/
def group_reversed (sep : Char) : Nat → List Nat → Nat → Str → Str
  | 0, _, _, rev => rev
  | fuel + 1, grouping, last, rev =>
    let size := grouping.headD last
    if size = 0 ∨ rev.length ≤ size then rev
    else rev.take size ++ sep :: group_reversed sep fuel grouping.tail size (rev.drop size)

/-- The text `HH:MM:SS.mmm` for given hours, minutes, seconds and
milliseconds. -/
def timestamp_text (h m s ms : Nat) : Str :=
  two_digits h ++ ':' :: (two_digits m ++ ':' :: (two_digits s ++ '.' ::
    pad_left 3 '0' (Nat.toDigits 10 ms)))

/-- The two ways in which a scan of `s` that starts with the map `m` fails:
after a run of well-formed items `ps`, the unread part `tail` is non-empty and
has no `element_sep`, or it starts with a key that is in the map by then. -/
def failure_cause (es is : Char) (s : Str) (m : StrMap) : Prop :=
  ∃ (ps : List (Str × Str)) (tail : Str),
    s = join_items es is ps ++ tail ∧ well_formed_pairs es is ps ∧
    ((tail ≠ [] ∧ es ∉ tail) ∨
      ∃ k t, tail = k ++ es :: t ∧ es ∉ k ∧ map_contains (m ++ ps) k = true)

/-! ## Facts about `find` and `substr` -/

theorem find_of_drop_none {s rest : Str} {c : Char} {pos : Nat}
    (h : s.drop pos = rest) (hc : c ∉ rest) : find s c pos = none := by
  simp [find, h, List.indexOf_of_not_mem hc]

theorem find_of_drop_some {s k t : Str} {c : Char} {pos : Nat}
    (h : s.drop pos = k ++ c :: t) (hc : c ∉ k) :
    find s c pos = some (pos + k.length) := by
  have hi : (k ++ c :: t).indexOf c = k.length := by
    rw [List.indexOf_append_of_not_mem hc]; simp
  simp [find, h, hi]

theorem substr_of_drop {s k t : Str} {pos : Nat} (h : s.drop pos = k ++ t) :
    substr s pos (some k.length) = k := by
  simp [substr, h]

theorem substr_npos_of_drop {s rest : Str} {pos : Nat} (h : s.drop pos = rest) :
    substr s pos none = rest := by
  simp [substr, h]

theorem drop_add_of_drop {s k t : Str} {pos : Nat} (h : s.drop pos = k ++ t) :
    s.drop (pos + k.length) = t := by
  rw [← List.drop_drop, h]; simp

theorem lt_length_of_drop {s rest : Str} {pos : Nat} (h : s.drop pos = rest)
    (hne : rest ≠ []) : pos < s.length := by
  by_contra hlt
  exact hne (by rw [← h]; exact List.drop_of_length_le (Nat.le_of_not_lt hlt))

/-- An index returned by `find` is a valid position, so that `end + 1` is
at most `size()` and the `substr` calls of the scanner cannot throw. -/
theorem find_lt_length {s : Str} {c : Char} {pos e : Nat}
    (h : find s c pos = some e) : pos ≤ e ∧ e < s.length := by
  unfold find at h
  simp only at h
  split at h
  · rename_i hlt
    simp only [Option.some.injEq] at h
    subst h
    refine ⟨Nat.le_add_right _ _, ?_⟩
    simp only [List.length_drop] at hlt
    omega
  · simp at h

/-! ## The scanner relation and the loop -/

/-- The loop, started at a position whose unread part is `rest`, computes the
outcome that `Scan` describes, as soon as the fuel exceeds the length of the
unread part. -/
theorem loop_of_scan {es is : Char} {rest : Str} {m : StrMap} {r : Bool × StrMap}
    (h : Scan es is rest m r) :
    ∀ (s : Str) (begin_ fuel : Nat), s.drop begin_ = rest → rest.length < fuel →
      deserialize_key_value_loop s es is fuel begin_ m = some r := by
  induction h with
  | done m =>
    intro s b fuel hd hf
    obtain ⟨f, rfl⟩ : ∃ f, fuel = f + 1 := ⟨fuel - 1, by omega⟩
    have hge : ¬ b < s.length := by
      intro hlt
      have hl := congrArg List.length hd
      simp only [List.length_drop, List.length_nil] at hl
      omega
    simp [deserialize_key_value_loop, hge]
  | malformed rest m hne hes =>
    intro s b fuel hd hf
    obtain ⟨f, rfl⟩ : ∃ f, fuel = f + 1 := ⟨fuel - 1, by omega⟩
    have hlt := lt_length_of_drop hd hne
    simp [deserialize_key_value_loop, hlt, find_of_drop_none hd hes]
  | duplicate k t m hk hc =>
    intro s b fuel hd hf
    obtain ⟨f, rfl⟩ : ∃ f, fuel = f + 1 := ⟨fuel - 1, by omega⟩
    have hlt := lt_length_of_drop hd (by simp)
    have hkey : substr s b (some k.length) = k := substr_of_drop hd
    simp [deserialize_key_value_loop, hlt, find_of_drop_some hd hk, hkey, map_emplace, hc]
  | last k v m hk hv hc =>
    intro s b fuel hd hf
    obtain ⟨f, rfl⟩ : ∃ f, fuel = f + 1 := ⟨fuel - 1, by omega⟩
    simp only [List.length_append, List.length_cons] at hf
    obtain ⟨g, rfl⟩ : ∃ g, f = g + 1 := ⟨f - 1, by omega⟩
    have hlt := lt_length_of_drop hd (by simp)
    have hkey : substr s b (some k.length) = k := substr_of_drop hd
    have hd1 : s.drop (b + k.length + 1) = v := by
      have h1 := drop_add_of_drop hd
      have h2 : s.drop (b + k.length) = [es] ++ v := by simpa using h1
      simpa using drop_add_of_drop h2
    have hval : substr s (b + k.length + 1) none = v := substr_npos_of_drop hd1
    simp [deserialize_key_value_loop, hlt, find_of_drop_some hd hk, hkey,
      find_of_drop_none hd1 hv, hval, map_emplace, hc]
  | more k v t m r hk hv hc _ ih =>
    intro s b fuel hd hf
    obtain ⟨f, rfl⟩ : ∃ f, fuel = f + 1 := ⟨fuel - 1, by omega⟩
    simp only [List.length_append, List.length_cons] at hf
    have hlt := lt_length_of_drop hd (by simp)
    have hkey : substr s b (some k.length) = k := substr_of_drop hd
    have hd1 : s.drop (b + k.length + 1) = v ++ is :: t := by
      have h1 := drop_add_of_drop hd
      have h2 : s.drop (b + k.length) = [es] ++ (v ++ is :: t) := by simpa using h1
      simpa using drop_add_of_drop h2
    have hval : substr s (b + k.length + 1) (some v.length) = v := substr_of_drop hd1
    have hd2 : s.drop (b + k.length + 1 + v.length + 1) = t := by
      have h1 := drop_add_of_drop hd1
      have h2 : s.drop (b + k.length + 1 + v.length) = [is] ++ t := by simpa using h1
      simpa using drop_add_of_drop h2
    have hrec := ih s (b + k.length + 1 + v.length + 1) f hd2 (by omega)
    simp [deserialize_key_value_loop, hlt, find_of_drop_some hd hk, hkey,
      find_of_drop_some hd1 hv, hval, map_emplace, hc, hrec]

/-- The function itself computes the outcome described by `Scan` on the whole
input. -/
theorem deserialize_of_scan {es is : Char} {s : Str} {m : StrMap} {r : Bool × StrMap}
    (h : Scan es is s m r) : deserialize_key_value s es is m = some r :=
  loop_of_scan h s 0 (s.length + 1) (by simp) (Nat.lt_succ_self _)

/-- The first occurrence of a character splits a list around it. -/
theorem split_at_first {c : Char} {l : Str} (h : c ∈ l) :
    ∃ k t, l = k ++ c :: t ∧ c ∉ k := by
  induction l with
  | nil => simp at h
  | cons a l ih =>
    by_cases hac : c = a
    · exact ⟨[], l, by simp [hac], by simp⟩
    · have hl : c ∈ l := by
        rcases List.mem_cons.mp h with h1 | h1
        · exact absurd h1 hac
        · exact h1
      obtain ⟨k, t, rfl, hk⟩ := ih hl
      refine ⟨a :: k, t, by simp, ?_⟩
      simp only [List.mem_cons, not_or]
      exact ⟨hac, hk⟩

/-- Every unread part and every map have an outcome: the scanner relation is
total. -/
theorem scan_total (es is : Char) :
    ∀ (n : Nat) (rest : Str) (m : StrMap), rest.length ≤ n → ∃ r, Scan es is rest m r := by
  intro n
  induction n with
  | zero =>
    intro rest m hn
    have : rest = [] := List.length_eq_zero.mp (Nat.le_zero.mp hn)
    subst this
    exact ⟨_, Scan.done m⟩
  | succ n ih =>
    intro rest m hn
    by_cases hne : rest = []
    · subst hne; exact ⟨_, Scan.done m⟩
    by_cases hes : es ∈ rest
    · obtain ⟨k, t, rfl, hk⟩ := split_at_first hes
      cases hc : map_contains m k with
      | true => exact ⟨_, Scan.duplicate k t m hk hc⟩
      | false =>
        by_cases his : is ∈ t
        · obtain ⟨v, u, rfl, hv⟩ := split_at_first his
          simp only [List.length_append, List.length_cons] at hn
          obtain ⟨r, hr⟩ := ih u (m ++ [(k, v)]) (by omega)
          exact ⟨r, Scan.more k v u m r hk hv hc hr⟩
        · exact ⟨_, Scan.last k t m hk his hc⟩
    · exact ⟨_, Scan.malformed rest m hne hes⟩

/-- The loop of `deserialize_key_value` always ends within the fuel of the
entry point: every call returns a boolean and a map. -/
theorem deserialize_key_value_total (s : Str) (es is : Char) (m : StrMap) :
    ∃ r, deserialize_key_value s es is m = some r := by
  obtain ⟨r, hr⟩ := scan_total es is s.length s m (Nat.le_refl _)
  exact ⟨r, deserialize_of_scan hr⟩

/-! ## Facts about the map -/

theorem map_contains_iff (m : StrMap) (k : Str) :
    map_contains m k = true ↔ k ∈ m.map Prod.fst := by
  simp only [map_contains, List.any_eq_true, beq_iff_eq, List.mem_map]

theorem map_contains_false_iff (m : StrMap) (k : Str) :
    map_contains m k = false ↔ k ∉ m.map Prod.fst := by
  rw [← map_contains_iff]; simp

theorem map_contains_append (m n : StrMap) (k : Str) :
    map_contains (m ++ n) k = (map_contains m k || map_contains n k) := by
  simp [map_contains]

theorem map_find_append_of_not_contains (m n : StrMap) (k : Str)
    (h : map_contains m k = false) : map_find (m ++ n) k = map_find n k := by
  induction m with
  | nil => rfl
  | cons a m ih =>
    simp only [map_contains, List.any_cons, Bool.or_eq_false_iff, beq_eq_false_iff_ne] at h
    have hne : (k == a.1) = false := by
      rw [beq_eq_false_iff_ne]; exact fun e => h.1 e.symm
    obtain ⟨a1, a2⟩ := a
    simp only [map_find, List.cons_append, List.lookup_cons, hne]
    exact ih h.2

theorem map_find_of_mem (n : StrMap) (hnd : (n.map Prod.fst).Nodup) :
    ∀ p ∈ n, map_find n p.1 = some p.2 := by
  induction n with
  | nil => intro p hp; simp at hp
  | cons a n ih =>
    intro p hp
    obtain ⟨a1, a2⟩ := a
    simp only [List.map_cons, List.nodup_cons] at hnd
    rcases List.mem_cons.mp hp with rfl | hp
    · simp [map_find, List.lookup_cons]
    · have hne : (p.1 == a1) = false := by
        rw [beq_eq_false_iff_ne]
        intro e
        exact hnd.1 (e ▸ List.mem_map_of_mem Prod.fst hp)
      simp only [map_find, List.lookup_cons, hne]
      exact ih hnd.2 p hp

/-- In a map extended by fresh, pairwise distinct keys, every added pair is
found with its value. -/
theorem map_find_extended (m n : StrMap) (hnd : (n.map Prod.fst).Nodup)
    (hfresh : ∀ p ∈ n, map_contains m p.1 = false) :
    ∀ p ∈ n, map_find (m ++ n) p.1 = some p.2 := by
  intro p hp
  rw [map_find_append_of_not_contains m n p.1 (hfresh p hp)]
  exact map_find_of_mem n hnd p hp

/-! ## Scanning joined pairs -/

theorem scan_join_pairs (es is : Char) :
    ∀ (ps : List (Str × Str)) (m : StrMap), well_formed_pairs es is ps →
      (ps.map Prod.fst).Nodup → (∀ p ∈ ps, map_contains m p.1 = false) →
      Scan es is (join_pairs es is ps) m (true, m ++ ps) := by
  intro ps
  induction ps with
  | nil =>
    intro m _ _ _
    simpa [join_pairs] using @Scan.done es is m
  | cons p ps ih =>
    intro m hwf hnd hfresh
    have hp := hwf p (List.mem_cons_self _ _)
    have hpm := hfresh p (List.mem_cons_self _ _)
    cases ps with
    | nil => exact Scan.last p.1 p.2 m hp.1 hp.2 hpm
    | cons q qs =>
      have hwf2 : well_formed_pairs es is (q :: qs) :=
        fun x hx => hwf x (List.mem_cons_of_mem _ hx)
      simp only [List.map_cons, List.nodup_cons] at hnd
      have hfresh2 : ∀ x ∈ q :: qs, map_contains (m ++ [p]) x.1 = false := by
        intro x hx
        rw [map_contains_append, hfresh x (List.mem_cons_of_mem _ hx)]
        simp only [map_contains, List.any_cons, List.any_nil, Bool.or_false, Bool.false_or,
          beq_eq_false_iff_ne]
        intro e
        exact hnd.1 (e ▸ (by simpa using List.mem_map_of_mem Prod.fst hx))
      have hrec := ih (m ++ [p]) hwf2 (by simpa using hnd.2) hfresh2
      have hmore := Scan.more p.1 p.2 _ m _ hp.1 hp.2 hpm hrec
      simpa [join_pairs] using hmore

theorem scan_join_pairs_duplicate (es is : Char) :
    ∀ (ps : List (Str × Str)) (m : StrMap), well_formed_pairs es is ps →
      (¬ (ps.map Prod.fst).Nodup ∨ ∃ p ∈ ps, map_contains m p.1 = true) →
      ∃ m', Scan es is (join_pairs es is ps) m (false, m') := by
  intro ps
  induction ps with
  | nil =>
    intro m _ h
    rcases h with h | ⟨p, hp, _⟩
    · simp at h
    · simp at hp
  | cons p ps ih =>
    intro m hwf h
    have hp := hwf p (List.mem_cons_self _ _)
    cases hpm : map_contains m p.1 with
    | true =>
      cases ps with
      | nil => exact ⟨m, Scan.duplicate p.1 p.2 m hp.1 hpm⟩
      | cons q qs => exact ⟨m, by simpa [join_pairs] using Scan.duplicate p.1 _ m hp.1 hpm⟩
    | false =>
      cases ps with
      | nil =>
        rcases h with h | ⟨x, hx, hxm⟩
        · simp at h
        · simp only [List.mem_singleton] at hx
          subst hx
          rw [hpm] at hxm
          exact absurd hxm (by simp)
      | cons q qs =>
        have hwf2 : well_formed_pairs es is (q :: qs) :=
          fun x hx => hwf x (List.mem_cons_of_mem _ hx)
        have h2 : ¬ ((q :: qs).map Prod.fst).Nodup ∨
            ∃ x ∈ q :: qs, map_contains (m ++ [p]) x.1 = true := by
          by_cases hnd : ((q :: qs).map Prod.fst).Nodup
          · right
            rcases h with h | ⟨x, hx, hxm⟩
            · rw [List.map_cons, List.nodup_cons] at h
              have hin : p.1 ∈ (q :: qs).map Prod.fst := by
                by_contra hc
                exact h ⟨hc, hnd⟩
              obtain ⟨x, hx, hxe⟩ := List.mem_map.mp hin
              refine ⟨x, hx, ?_⟩
              rw [map_contains_append]
              simp [map_contains, hxe]
            · rcases List.mem_cons.mp hx with rfl | hx
              · rw [hpm] at hxm
                exact absurd hxm (by simp)
              · exact ⟨x, hx, by rw [map_contains_append, hxm]; rfl⟩
          · exact Or.inl hnd
        obtain ⟨m', hm'⟩ := ih (m ++ [p]) hwf2 h2
        exact ⟨m', by simpa [join_pairs] using Scan.more p.1 p.2 _ m _ hp.1 hp.2 hpm hm'⟩

theorem scan_join_items_malformed (es is : Char) (rest : Str) (hne : rest ≠ [])
    (hes : es ∉ rest) :
    ∀ (ps : List (Str × Str)) (m : StrMap), well_formed_pairs es is ps →
      ∃ m', Scan es is (join_items es is ps ++ rest) m (false, m') := by
  intro ps
  induction ps with
  | nil =>
    intro m _
    exact ⟨m, by simpa [join_items] using @Scan.malformed es is rest m hne hes⟩
  | cons p ps ih =>
    intro m hwf
    have hp := hwf p (List.mem_cons_self _ _)
    have hwf2 : well_formed_pairs es is ps := fun x hx => hwf x (List.mem_cons_of_mem _ hx)
    cases hpm : map_contains m p.1 with
    | true => exact ⟨m, by simpa [join_items] using Scan.duplicate p.1 _ m hp.1 hpm⟩
    | false =>
      obtain ⟨m', hm'⟩ := ih (m ++ [p]) hwf2
      exact ⟨m', by simpa [join_items] using Scan.more p.1 p.2 _ m _ hp.1 hp.2 hpm hm'⟩

/-- A failed scan stopped after a run of well-formed items, each of which was
inserted as a new key, at an unread part that is either malformed or starts
with a key that is already in the map. -/
theorem scan_false_inv {es is : Char} {rest : Str} {m : StrMap} {r : Bool × StrMap}
    (h : Scan es is rest m r) : r.1 = false →
    ∃ (ps : List (Str × Str)) (tail : Str),
      rest = join_items es is ps ++ tail ∧ well_formed_pairs es is ps ∧
      r.2 = m ++ ps ∧ (ps.map Prod.fst).Nodup ∧
      (∀ p ∈ ps, map_contains m p.1 = false) ∧
      ((tail ≠ [] ∧ es ∉ tail) ∨
        ∃ k t, tail = k ++ es :: t ∧ es ∉ k ∧ map_contains (m ++ ps) k = true) := by
  induction h with
  | done m => intro hr; simp at hr
  | malformed rest m hne hes =>
    intro _
    exact ⟨[], rest, by simp [join_items], by simp [well_formed_pairs], by simp, by simp,
      by simp, Or.inl ⟨hne, hes⟩⟩
  | duplicate k t m hk hc =>
    intro _
    exact ⟨[], k ++ es :: t, by simp [join_items], by simp [well_formed_pairs], by simp,
      by simp, by simp, Or.inr ⟨k, t, rfl, hk, by simpa using hc⟩⟩
  | last k v m hk hv hc => intro hr; simp at hr
  | more k v t m r hk hv hc _ ih =>
    intro hr
    obtain ⟨ps, tail, hrest, hwf, hmap, hnd, hfresh, hcause⟩ := ih hr
    refine ⟨(k, v) :: ps, tail, ?_, ?_, ?_, ?_, ?_, ?_⟩
    · simp [join_items, hrest]
    · intro p hp
      rcases List.mem_cons.mp hp with rfl | hp
      · exact ⟨hk, hv⟩
      · exact hwf p hp
    · simp [hmap]
    · rw [List.map_cons, List.nodup_cons]
      refine ⟨?_, hnd⟩
      intro hin
      obtain ⟨x, hx, hxe⟩ := List.mem_map.mp hin
      have hc2 := hfresh x hx
      rw [map_contains_append] at hc2
      simp [map_contains, hxe] at hc2
    · intro p hp
      rcases List.mem_cons.mp hp with rfl | hp
      · exact hc
      · have hc2 := hfresh p hp
        rw [map_contains_append, Bool.or_eq_false_iff] at hc2
        exact hc2.1
    · rcases hcause with hm | ⟨k2, t2, ht, hk2, hc2⟩
      · exact Or.inl hm
      · exact Or.inr ⟨k2, t2, ht, hk2, by simpa using hc2⟩

/-! ## Theorems on `deserialize_key_value` -/

/-- C1: on the pairs `(k1,v1)..(kn,vn)` joined with `element_sep` and `item_sep`,
with pairwise distinct keys, no `element_sep` in a key and no `item_sep` in a
value, `deserialize_key_value` called with an empty map returns true and the map
then holds exactly those pairs: it has size `n` and maps every `ki` to `vi`. -/
theorem deserialize_key_value_join_pairs (es is : Char) (ps : List (Str × Str))
    (hwf : well_formed_pairs es is ps) (hnd : (ps.map Prod.fst).Nodup) :
    deserialize_key_value (join_pairs es is ps) es is [] = some (true, ps) ∧
      map_size ps = ps.length ∧ ∀ p ∈ ps, map_find ps p.1 = some p.2 := by
  refine ⟨?_, rfl, map_find_of_mem ps hnd⟩
  have h := scan_join_pairs es is ps [] hwf hnd (by intro p _; rfl)
  simpa using deserialize_of_scan h

/-- C1, on the input of the test: `name=john&age=50` with `=` and `&` gives a
map of size 2 with `name -> john` and `age -> 50`. -/
theorem deserialize_key_value_join_pairs_witness :
    well_formed_pairs '=' '&' [("name".toList, "john".toList), ("age".toList, "50".toList)] ∧
    ([("name".toList, "john".toList), ("age".toList, "50".toList)].map Prod.fst).Nodup ∧
    (deserialize_key_value "name=john&age=50".toList '=' '&' [] =
        some (true, [("name".toList, "john".toList), ("age".toList, "50".toList)]) ∧
      map_size [("name".toList, "john".toList), ("age".toList, "50".toList)] = 2 ∧
      ∀ p ∈ [("name".toList, "john".toList), ("age".toList, "50".toList)],
        map_find [("name".toList, "john".toList), ("age".toList, "50".toList)] p.1 = some p.2) :=
  ⟨by decide, by decide,
    deserialize_key_value_join_pairs '=' '&'
      [("name".toList, "john".toList), ("age".toList, "50".toList)] (by decide) (by decide)⟩

/-- C2: on joined well-formed pairs in which some key repeats an earlier key of
the input, or is already a key of the output map before the call,
`deserialize_key_value` returns false. -/
theorem deserialize_key_value_duplicate (es is : Char) (ps : List (Str × Str)) (m : StrMap)
    (hwf : well_formed_pairs es is ps)
    (hdup : ¬ (ps.map Prod.fst).Nodup ∨ ∃ p ∈ ps, map_contains m p.1 = true) :
    ∃ m', deserialize_key_value (join_pairs es is ps) es is m = some (false, m') := by
  obtain ⟨m', h⟩ := scan_join_pairs_duplicate es is ps m hwf hdup
  exact ⟨m', deserialize_of_scan h⟩

/-- C2, on `a=1&b=2&a=3` with an empty map: the third key repeats the first. -/
theorem deserialize_key_value_duplicate_witness :
    well_formed_pairs '=' '&'
      [("a".toList, "1".toList), ("b".toList, "2".toList), ("a".toList, "3".toList)] ∧
    (¬ ([("a".toList, "1".toList), ("b".toList, "2".toList),
          ("a".toList, "3".toList)].map Prod.fst).Nodup ∨
      ∃ p ∈ [("a".toList, "1".toList), ("b".toList, "2".toList), ("a".toList, "3".toList)],
        map_contains [] p.1 = true) ∧
    ∃ m', deserialize_key_value "a=1&b=2&a=3".toList '=' '&' [] = some (false, m') :=
  ⟨by decide, Or.inl (by decide),
    deserialize_key_value_duplicate '=' '&'
      [("a".toList, "1".toList), ("b".toList, "2".toList), ("a".toList, "3".toList)] []
      (by decide) (Or.inl (by decide))⟩

/-- C3: when the scan stands at a non-empty unread part without `element_sep`,
the loop returns false there; hence an input made of any well-formed items
followed by a non-empty part without `element_sep` is rejected, and so is every
non-empty input without any `element_sep`. -/
theorem deserialize_key_value_trailing_key (es is : Char) :
    (∀ (s : Str) (fuel begin_ : Nat) (m : StrMap), begin_ < s.length →
        es ∉ s.drop begin_ →
        deserialize_key_value_loop s es is (fuel + 1) begin_ m = some (false, m)) ∧
    (∀ (ps : List (Str × Str)) (rest : Str) (m : StrMap), well_formed_pairs es is ps →
        rest ≠ [] → es ∉ rest →
        ∃ m', deserialize_key_value (join_items es is ps ++ rest) es is m = some (false, m')) ∧
    (∀ (s : Str) (m : StrMap), s ≠ [] → es ∉ s →
        deserialize_key_value s es is m = some (false, m)) := by
  refine ⟨?_, ?_, ?_⟩
  · intro s fuel b m hlt hes
    simp [deserialize_key_value_loop, hlt, find_of_drop_none rfl hes]
  · intro ps rest m hwf hne hes
    obtain ⟨m', h⟩ := scan_join_items_malformed es is rest hne hes ps m hwf
    exact ⟨m', deserialize_of_scan h⟩
  · intro s m hne hes
    exact deserialize_of_scan (Scan.malformed s m hne hes)

/-- C3, on `a=b&c`: after the item `a=b&` the unread part `c` has no `=`. -/
theorem deserialize_key_value_trailing_key_witness :
    well_formed_pairs '=' '&' [("a".toList, "b".toList)] ∧ "c".toList ≠ [] ∧
    '=' ∉ "c".toList ∧
    ∃ m', deserialize_key_value "a=b&c".toList '=' '&' [] = some (false, m') :=
  ⟨by decide, by decide, by decide,
    (deserialize_key_value_trailing_key '=' '&').2.1 [("a".toList, "b".toList)] "c".toList []
      (by decide) (by decide) (by decide)⟩

/-- C4: whenever `deserialize_key_value` returns false, the input is a run of
well-formed items `ps` followed by the part at which the scan failed, and the
output map is the map before the call extended with exactly the pairs `ps`:
each of them was a new key and is found with its value, nothing behind the
failing position was inserted, and when the failure is a duplicate key the map
still holds the value stored first. -/
theorem deserialize_key_value_partial_fill (es is : Char) (s : Str) (m m' : StrMap)
    (h : deserialize_key_value s es is m = some (false, m')) :
    ∃ (ps : List (Str × Str)) (tail : Str),
      s = join_items es is ps ++ tail ∧ well_formed_pairs es is ps ∧
      m' = m ++ ps ∧ (ps.map Prod.fst).Nodup ∧
      (∀ p ∈ ps, map_contains m p.1 = false) ∧
      (∀ p ∈ ps, map_find m' p.1 = some p.2) ∧
      ((tail ≠ [] ∧ es ∉ tail) ∨
        ∃ k t, tail = k ++ es :: t ∧ es ∉ k ∧ map_contains (m ++ ps) k = true ∧
          map_find m' k = map_find (m ++ ps) k) := by
  obtain ⟨r, hr⟩ := scan_total es is s.length s m (Nat.le_refl _)
  have hrun := deserialize_of_scan hr
  rw [h] at hrun
  have hreq : r = (false, m') := (Option.some.inj hrun).symm
  subst hreq
  obtain ⟨ps, tail, hs, hwf, hmap, hnd, hfresh, hcause⟩ := scan_false_inv hr rfl
  simp only at hmap
  subst hmap
  refine ⟨ps, tail, hs, hwf, rfl, hnd, hfresh, map_find_extended m ps hnd hfresh, ?_⟩
  rcases hcause with hm | ⟨k, t, ht, hk, hc⟩
  · exact Or.inl hm
  · exact Or.inr ⟨k, t, ht, hk, hc, rfl⟩

/-- C4, on `a=1&b=2&a=3&c=4` with an empty map: the call fails at the second
`a`, and the map holds `a -> 1` and `b -> 2` only. -/
theorem deserialize_key_value_partial_fill_witness :
    deserialize_key_value "a=1&b=2&a=3&c=4".toList '=' '&' [] =
      some (false, [("a".toList, "1".toList), ("b".toList, "2".toList)]) ∧
    ∃ (ps : List (Str × Str)) (tail : Str),
      "a=1&b=2&a=3&c=4".toList = join_items '=' '&' ps ++ tail ∧ well_formed_pairs '=' '&' ps ∧
      [("a".toList, "1".toList), ("b".toList, "2".toList)] = [] ++ ps ∧
      (ps.map Prod.fst).Nodup ∧
      (∀ p ∈ ps, map_contains [] p.1 = false) ∧
      (∀ p ∈ ps, map_find [("a".toList, "1".toList), ("b".toList, "2".toList)] p.1 = some p.2) ∧
      ((tail ≠ [] ∧ '=' ∉ tail) ∨
        ∃ k t, tail = k ++ '=' :: t ∧ '=' ∉ k ∧ map_contains ([] ++ ps) k = true ∧
          map_find [("a".toList, "1".toList), ("b".toList, "2".toList)] k =
            map_find ([] ++ ps) k) :=
  ⟨by decide,
    deserialize_key_value_partial_fill '=' '&' "a=1&b=2&a=3&c=4".toList []
      [("a".toList, "1".toList), ("b".toList, "2".toList)] (by decide)⟩

/-! ## Theorems on `count_digits` -/

theorem count_digits_loop_eq :
    ∀ (fuel : Nat) (number count : Int), number.natAbs < fuel →
      count_digits_loop fuel number count =
        some (count + ((Nat.digits 10 number.natAbs).length : Int)) := by
  intro fuel
  induction fuel with
  | zero => intro number count h; omega
  | succ fuel ih =>
    intro number count h
    by_cases h0 : number = 0
    · subst h0
      simp [count_digits_loop]
    · have hpos : 0 < number.natAbs := Int.natAbs_pos.mpr h0
      have hdiv : (number.tdiv 10).natAbs = number.natAbs / 10 := by
        rw [Int.natAbs_tdiv]; rfl
      have hlt : (number.tdiv 10).natAbs < fuel := by
        rw [hdiv]; omega
      have hdig : (Nat.digits 10 number.natAbs).length =
          (Nat.digits 10 (number.natAbs / 10)).length + 1 := by
        rw [Nat.digits_def' (by norm_num) hpos]; rfl
      rw [count_digits_loop, if_pos h0, ih _ _ hlt, hdiv, hdig]
      push_cast
      congr 1
      ring

/-- The loop of `count_digits` ends within the fuel of the entry point, with
the number of decimal digits of `|number|`. -/
theorem count_digits_eq (number : Int) :
    count_digits number = some ((Nat.digits 10 number.natAbs).length : Int) := by
  unfold count_digits
  rw [count_digits_loop_eq _ _ _ (Nat.lt_succ_self _)]
  simp

theorem digits_length_bounds (m : Nat) (hm : 0 < m) :
    10 ^ ((Nat.digits 10 m).length - 1) ≤ m ∧ m < 10 ^ (Nat.digits 10 m).length := by
  refine ⟨?_, Nat.lt_base_pow_length_digits (by norm_num)⟩
  have h1 := Nat.base_pow_length_digits_le 10 m (by norm_num) (Nat.pos_iff_ne_zero.mp hm)
  have hlen : 0 < (Nat.digits 10 m).length := by
    rw [Nat.digits_def' (by norm_num) hm]; simp
  obtain ⟨d, hd⟩ : ∃ d, (Nat.digits 10 m).length = d + 1 := ⟨_, (Nat.succ_pred_eq_of_pos hlen).symm⟩
  rw [hd] at h1 ⊢
  simp only [Nat.add_sub_cancel]
  rw [pow_succ] at h1
  omega

theorem digits_length_unique (m e : Nat) (h1 : 10 ^ (e - 1) ≤ m) (h2 : m < 10 ^ e) :
    e = (Nat.digits 10 m).length := by
  have hm : 0 < m := Nat.lt_of_lt_of_le (Nat.pow_pos (by norm_num)) h1
  obtain ⟨b1, b2⟩ := digits_length_bounds m hm
  rcases Nat.lt_trichotomy e (Nat.digits 10 m).length with hlt | heq | hgt
  · have : 10 ^ e ≤ 10 ^ ((Nat.digits 10 m).length - 1) :=
      Nat.pow_le_pow_right (by norm_num) (by omega)
    omega
  · exact heq
  · have : 10 ^ (Nat.digits 10 m).length ≤ 10 ^ (e - 1) :=
      Nat.pow_le_pow_right (by norm_num) (by omega)
    omega

/-- C8: for every `n > 0`, `count_digits(n)` is the number of base-10 digits of
`n`, that is the unique `d` with `10^(d-1) <= n < 10^d`; and `count_digits(0)`
is 0. -/
theorem count_digits_spec :
    (∀ n : Int, 0 < n → ∃ d : Nat, count_digits n = some (d : Int) ∧
        d = (Nat.digits 10 n.toNat).length ∧
        (10 : Int) ^ (d - 1) ≤ n ∧ n < (10 : Int) ^ d ∧
        ∀ e : Nat, (10 : Int) ^ (e - 1) ≤ n → n < (10 : Int) ^ e → e = d) ∧
    count_digits 0 = some 0 := by
  refine ⟨?_, by decide⟩
  intro n hn
  obtain ⟨m, rfl⟩ := Int.eq_ofNat_of_zero_le (Int.le_of_lt hn)
  have hm : 0 < m := by exact_mod_cast hn
  obtain ⟨b1, b2⟩ := digits_length_bounds m hm
  refine ⟨(Nat.digits 10 m).length, ?_, ?_, ?_, ?_, ?_⟩
  · rw [count_digits_eq]; simp
  · simp
  · exact_mod_cast b1
  · exact_mod_cast b2
  · intro e h1 h2
    exact digits_length_unique m e (by exact_mod_cast h1) (by exact_mod_cast h2)

/-- C8, on the largest `int`: `count_digits(2147483647)` is 10. -/
theorem count_digits_spec_witness :
    (0 : Int) < 2147483647 ∧ count_digits 2147483647 = some 10 ∧
      ∃ d : Nat, count_digits 2147483647 = some (d : Int) ∧
        d = (Nat.digits 10 (2147483647 : Int).toNat).length ∧
        (10 : Int) ^ (d - 1) ≤ 2147483647 ∧ (2147483647 : Int) < (10 : Int) ^ d ∧
        ∀ e : Nat, (10 : Int) ^ (e - 1) ≤ 2147483647 → (2147483647 : Int) < (10 : Int) ^ e →
          e = d :=
  ⟨by decide, by decide, count_digits_spec.1 2147483647 (by decide)⟩

/-! ## Digit strings -/

theorem dist_chars_mem {p : Nat} {c : Char} (h : dist_chars[p]? = some c) : c ∈ dist_chars :=
  List.getElem?_mem h

/-- Every character of the table is a decimal digit, with its value. -/
theorem dist_chars_digit {c : Char} (h : c ∈ dist_chars) :
    c.isDigit = true ∧ c.toNat - 48 ≤ 9 ∧ (c ≠ '0' → 1 ≤ c.toNat - 48) := by
  simp only [dist_chars, String.toList, List.mem_cons, List.mem_singleton, List.not_mem_nil,
    or_false] at h
  rcases h with rfl | rfl | rfl | rfl | rfl | rfl | rfl | rfl | rfl | rfl <;> decide

theorem foldl_digits_acc (b : Nat) (s : Str) :
    ∀ acc : Nat, s.foldl (fun a c => a * b + (c.toNat - 48)) acc =
      acc * b ^ s.length + s.foldl (fun a c => a * b + (c.toNat - 48)) 0 := by
  induction s with
  | nil => intro acc; simp
  | cons c s ih =>
    intro acc
    simp only [List.foldl_cons, List.length_cons]
    rw [ih (acc * b + (c.toNat - 48)), ih (0 * b + (c.toNat - 48))]
    ring

theorem decimal_value_cons (c : Char) (s : Str) :
    decimal_value (c :: s) = (c.toNat - 48) * 10 ^ s.length + decimal_value s := by
  simp only [decimal_value, List.foldl_cons]
  rw [foldl_digits_acc 10 s]
  simp

theorem decimal_value_lt (s : Str) (h : ∀ c ∈ s, c ∈ dist_chars) :
    decimal_value s < 10 ^ s.length := by
  induction s with
  | nil => simp [decimal_value]
  | cons c s ih =>
    have hc := (dist_chars_digit (h c (List.mem_cons_self _ _))).2.1
    have hs := ih (fun x hx => h x (List.mem_cons_of_mem _ hx))
    rw [decimal_value_cons, List.length_cons, pow_succ]
    nlinarith [Nat.pow_pos (n := s.length) (show 0 < 10 by norm_num)]

theorem decimal_value_ge (c : Char) (s : Str) (hc : c ∈ dist_chars) (h0 : c ≠ '0') :
    10 ^ s.length ≤ decimal_value (c :: s) := by
  have h1 := (dist_chars_digit hc).2.2 h0
  rw [decimal_value_cons]
  nlinarith [Nat.pow_pos (n := s.length) (show 0 < 10 by norm_num)]

theorem takeWhile_isDigit (s : Str) (h : ∀ c ∈ s, c ∈ dist_chars) :
    s.takeWhile Char.isDigit = s := by
  induction s with
  | nil => rfl
  | cons c s ih =>
    have hc := (dist_chars_digit (h c (List.mem_cons_self _ _))).1
    rw [List.takeWhile_cons, hc]
    simp only [if_true]
    rw [ih (fun x hx => h x (List.mem_cons_of_mem _ hx))]

/-! ## The generated digit string -/

theorem leading_digit_ok :
    ∀ (picks : List Nat) (s : Str) (rest : List Nat), leading_digit picks = .ok (s, rest) →
      ∃ c, s = [c] ∧ c ∈ dist_chars ∧ c ≠ '0' := by
  intro picks
  induction picks with
  | nil => intro s rest h; simp [leading_digit] at h
  | cons p picks ih =>
    intro s rest h
    rw [leading_digit] at h
    cases hp : dist_chars[p]? with
    | none => rw [hp] at h; simp at h
    | some c =>
      rw [hp] at h
      simp only at h
      by_cases hz : [c] = "0".toList
      · rw [if_pos hz] at h
        exact ih s rest h
      · rw [if_neg hz] at h
        simp only [Except.ok.injEq, Prod.mk.injEq] at h
        refine ⟨c, h.1.symm, dist_chars_mem hp, ?_⟩
        intro hc
        exact hz (by rw [hc]; rfl)

theorem random_digits_loop_inv (len : Nat) :
    ∀ (n : Nat) (s : Str) (picks : List Nat) (out : Str), n < len →
      is_number_string (len - n) s →
      random_digits_loop len n s picks = .ok out → is_number_string len out := by
  intro n
  induction n with
  | zero =>
    intro s picks out _ hs h
    simp only [random_digits_loop, Except.ok.injEq] at h
    subst h
    simpa using hs
  | succ n ih =>
    intro s picks out hn hs h
    have hne : ¬ len - 1 = n := by omega
    simp only [random_digits_loop, if_neg hne] at h
    cases picks with
    | nil => simp at h
    | cons p picks1 =>
      simp only at h
      cases hp : dist_chars[p]? with
      | none => rw [hp] at h; simp at h
      | some c =>
        rw [hp] at h
        simp only at h
        refine ih (s ++ [c]) picks1 out (by omega) ?_ h
        obtain ⟨hl, hd, c0, rest, hs0, hc0⟩ := hs
        refine ⟨by simp [hl]; omega, ?_, c0, rest ++ [c], by simp [hs0], hc0⟩
        intro x hx
        rcases List.mem_append.mp hx with hx | hx
        · exact hd x hx
        · rw [List.mem_singleton.mp hx]; exact dist_chars_mem hp

/-- When the generation loop completes it has built a string of exactly
`length_of_number` decimal digits whose first digit is not `0`. -/
theorem random_digits_loop_ok (len : Nat) (hlen : 0 < len) (picks : List Nat) (out : Str)
    (h : random_digits_loop len len [] picks = .ok out) : is_number_string len out := by
  obtain ⟨n, rfl⟩ : ∃ n, len = n + 1 := ⟨len - 1, by omega⟩
  simp only [random_digits_loop, Nat.add_sub_cancel, if_true] at h
  cases hl : leading_digit picks with
  | error e => rw [hl] at h; simp at h
  | ok sp =>
    obtain ⟨s1, picks1⟩ := sp
    rw [hl] at h
    simp only at h
    obtain ⟨c, rfl, hc, hc0⟩ := leading_digit_ok picks s1 picks1 hl
    refine random_digits_loop_inv (n + 1) n [c] picks1 out (by omega) ?_ h
    refine ⟨by simp, ?_, c, [], rfl, hc0⟩
    intro x hx
    rw [List.mem_singleton.mp hx]; exact hc

/-- The loop never ends with the exception of the length check. -/
theorem random_digits_loop_not_out_of_range (len : Nat) :
    ∀ (n : Nat) (s : Str) (picks : List Nat),
      random_digits_loop len n s picks ≠ .error .out_of_range := by
  have hlead : ∀ picks : List Nat, leading_digit picks ≠ .error .out_of_range := by
    intro picks
    induction picks with
    | nil => simp [leading_digit]
    | cons p picks ih =>
      rw [leading_digit]
      cases hp : dist_chars[p]? with
      | none => simp
      | some c =>
        simp only
        split
        · exact ih
        · simp
  intro n
  induction n with
  | zero => intro s picks; simp [random_digits_loop]
  | succ n ih =>
    intro s picks
    simp only [random_digits_loop]
    split
    · cases hl : leading_digit picks with
      | error e =>
        simp only [ne_eq, Except.error.injEq]
        intro he
        exact hlead picks (by rw [hl, he])
      | ok sp => exact ih _ _
    · cases picks with
      | nil => simp
      | cons p picks1 =>
        simp only
        cases hp : dist_chars[p]? with
        | none => simp
        | some c => exact ih _ _

/-- A number string of length `len` denotes a number of exactly `len` digits. -/
theorem is_number_string_value (len : Nat) (s : Str) (h : is_number_string len s) :
    10 ^ (len - 1) ≤ decimal_value s ∧ decimal_value s < 10 ^ len := by
  obtain ⟨hl, hd, c, rest, rfl, hc0⟩ := h
  subst hl
  refine ⟨?_, decimal_value_lt _ hd⟩
  simpa using decimal_value_ge c rest (hd c (List.mem_cons_self _ _)) hc0

/-- A length that passes the check of `random_number_of_length_n` leaves room
for every number of that many digits: `10^length <= max`. -/
theorem pow_le_of_length_check (z : Int) (hz : 0 ≤ z) (d : Int) (len : Nat)
    (hd : count_digits z = some d) (hlt : (len : Int) < d) : (10 : Int) ^ len ≤ z := by
  obtain ⟨m, rfl⟩ := Int.eq_ofNat_of_zero_le hz
  rw [count_digits_eq] at hd
  simp only [Int.natAbs_ofNat, Option.some.injEq] at hd
  subst hd
  have hlt2 : len < (Nat.digits 10 m).length := by exact_mod_cast hlt
  have hm : 0 < m := by
    rcases Nat.eq_zero_or_pos m with h0 | h0
    · subst h0; simp at hlt2
    · exact h0
  have hb := (digits_length_bounds m hm).1
  have hp : 10 ^ len ≤ 10 ^ ((Nat.digits 10 m).length - 1) :=
    Nat.pow_le_pow_right (by norm_num) (by omega)
  exact_mod_cast Nat.le_trans hp hb

theorem IntType.max_nonneg (T : IntType) : 0 ≤ T.max := by
  unfold IntType.max
  split
  · have : (0 : Int) < 2 ^ (T.bits - 1) := pow_pos (by norm_num) _
    omega
  · have : (0 : Int) < 2 ^ T.bits := pow_pos (by norm_num) _
    omega

/-! ## Theorems on `random_number_of_length_n` -/

/-- What a completed call went through: the length passed the check, the loop
built a digit string, and the result is what the stream extraction stored. -/
theorem random_number_of_length_n_ok {T : IntType} {len : Nat} {picks : List Nat} {r : Int}
    (h : random_number_of_length_n T len picks = .ok r) :
    ∃ (d : Int) (s : Str), count_digits T.max = some d ∧ (len : Int) < d ∧ 0 < len ∧
      random_digits_loop len len [] picks = .ok s ∧ r = stream_extract T s := by
  unfold random_number_of_length_n at h
  cases hd : count_digits T.max with
  | none => rw [hd] at h; simp at h
  | some d =>
    rw [hd] at h
    simp only at h
    split at h
    · rename_i hc
      cases hl : random_digits_loop len len [] picks with
      | error e => rw [hl] at h; simp at h
      | ok s =>
        rw [hl] at h
        simp only [Except.ok.injEq] at h
        exact ⟨d, s, rfl, hc.1, hc.2, rfl, h.symm⟩
    · simp at h

/-- For a type that is not a character type, the extraction of a digit string
whose value fits stores that value. -/
theorem stream_extract_number (T : IntType) (hT : T.is_char = false) (s : Str)
    (hd : ∀ c ∈ s, c ∈ dist_chars) (hfit : (decimal_value s : Int) ≤ T.max) :
    stream_extract T s = (decimal_value s : Int) := by
  unfold stream_extract
  rw [hT, takeWhile_isDigit s hd]
  simp only [Bool.false_eq_true, if_false]
  rw [if_neg (by omega)]

/-- The digits of the result, for the integer types that are not character
types: for every such type, every accepted length and every sequence of picks on which the generation completes,
the result `r` of `random_number_of_length_n` has exactly `length` decimal
digits and a non-zero leading digit: `10^(length-1) <= r < 10^length`, and
`count_digits(r) == length`. -/
theorem random_number_of_length_n_digits (T : IntType) (hT : T.is_char = false)
    (length_of_number : Nat) (picks : List Nat) (r : Int)
    (h : random_number_of_length_n T length_of_number picks = .ok r) :
    (10 : Int) ^ (length_of_number - 1) ≤ r ∧ r < (10 : Int) ^ length_of_number ∧
      count_digits r = some (length_of_number : Int) := by
  obtain ⟨d, s, hd, hlt, hpos, hloop, hr⟩ := random_number_of_length_n_ok h
  have hs := random_digits_loop_ok length_of_number hpos picks s hloop
  obtain ⟨b1, b2⟩ := is_number_string_value length_of_number s hs
  have hmax := pow_le_of_length_check T.max T.max_nonneg d length_of_number hd hlt
  have hfit : (decimal_value s : Int) ≤ T.max := by
    have : (decimal_value s : Int) < (10 : Int) ^ length_of_number := by exact_mod_cast b2
    omega
  rw [stream_extract_number T hT s hs.2.1 hfit] at hr
  subst hr
  refine ⟨by exact_mod_cast b1, by exact_mod_cast b2, ?_⟩
  rw [count_digits_eq]
  simp only [Int.natAbs_ofNat, Option.some.injEq, Nat.cast_inj]
  exact (digits_length_unique _ _ b1 b2).symm

/-- The digits of the result on the inputs of the tests: `int` with length 9
and `size_t` with length 1, each on a sequence of picks that starts with rejected zeros. -/
theorem random_number_of_length_n_digits_witness :
    (int32.is_char = false ∧
      random_number_of_length_n int32 9 [9, 9, 0, 1, 2, 3, 4, 5, 6, 7, 8] = .ok 123456789 ∧
      ((10 : Int) ^ (9 - 1) ≤ 123456789 ∧ (123456789 : Int) < (10 : Int) ^ 9 ∧
        count_digits 123456789 = some ((9 : Nat) : Int))) ∧
    (size_t64.is_char = false ∧
      random_number_of_length_n size_t64 1 [9, 4] = .ok 5 ∧
      ((10 : Int) ^ (1 - 1) ≤ 5 ∧ (5 : Int) < (10 : Int) ^ 1 ∧
        count_digits 5 = some ((1 : Nat) : Int))) :=
  ⟨⟨rfl, by decide,
      random_number_of_length_n_digits int32 rfl 9 [9, 9, 0, 1, 2, 3, 4, 5, 6, 7, 8] 123456789
        (by decide)⟩,
    ⟨rfl, by decide,
      random_number_of_length_n_digits size_t64 rfl 1 [9, 4] 5 (by decide)⟩⟩

/-- C5 fails on the code for the character types, for which the extraction
`ss_for_num >> return_num` reads one character and not a number: with
`unsigned char`, whose maximum 255 has 3 digits, the length 1 is accepted, and
on the pick 0 the digit string is `1`, but the value returned is 49, the code
of the character `1`, which is not below `10^1` and has 2 digits. -/
theorem random_number_of_length_n_unsigned_char :
    count_digits unsigned_char.max = some 3 ∧
    random_digits_loop 1 1 [] [0] = .ok "1".toList ∧
    random_number_of_length_n unsigned_char 1 [0] = .ok 49 ∧
    ¬ ((49 : Int) < (10 : Int) ^ 1) ∧ count_digits 49 = some 2 := by
  decide

/-- C6: `random_number_of_length_n` ends with `std::out_of_range` exactly when
`length == 0` or `length >= count_digits(max)`, whatever the picks; for the
32-bit `int` that is exactly when `length == 0` or `length >= 10`. -/
theorem random_number_of_length_n_out_of_range :
    (∀ (T : IntType) (len : Nat) (picks : List Nat), ∃ d : Int,
        count_digits T.max = some d ∧
        (random_number_of_length_n T len picks = .error .out_of_range ↔
          (len = 0 ∨ d ≤ (len : Int)))) ∧
    (∀ (len : Nat) (picks : List Nat),
        random_number_of_length_n int32 len picks = .error .out_of_range ↔
          (len = 0 ∨ 10 ≤ len)) := by
  have key : ∀ (T : IntType) (len : Nat) (picks : List Nat) (d : Int),
      count_digits T.max = some d →
      (random_number_of_length_n T len picks = .error .out_of_range ↔
        (len = 0 ∨ d ≤ (len : Int))) := by
    intro T len picks d hd
    unfold random_number_of_length_n
    rw [hd]
    simp only
    split
    · rename_i hc
      constructor
      · intro h
        exfalso
        cases hl : random_digits_loop len len [] picks with
        | error e =>
          rw [hl] at h
          simp only [Except.error.injEq] at h
          exact random_digits_loop_not_out_of_range len len [] picks (by rw [hl, h])
        | ok s => rw [hl] at h; simp at h
      · intro h
        omega
    · rename_i hc
      constructor
      · intro _
        by_contra hn
        exact hc ⟨by omega, by omega⟩
      · intro _; rfl
  refine ⟨?_, ?_⟩
  · intro T len picks
    exact ⟨_, count_digits_eq T.max, key T len picks _ (count_digits_eq T.max)⟩
  · intro len picks
    rw [key int32 len picks 10 (by decide)]
    omega

/-- C6, on the lengths of the tests: 2147483647 and 2147483649 with `int` end
with `std::out_of_range`, and so does length 0, while length 9 does not. -/
theorem random_number_of_length_n_out_of_range_witness :
    random_number_of_length_n int32 2147483647 [] = .error .out_of_range ∧
    random_number_of_length_n int32 2147483649 [] = .error .out_of_range ∧
    random_number_of_length_n int32 0 [] = .error .out_of_range ∧
    random_number_of_length_n int32 9 [] ≠ .error .out_of_range :=
  ⟨(random_number_of_length_n_out_of_range.2 2147483647 []).mpr (Or.inr (by decide)),
    (random_number_of_length_n_out_of_range.2 2147483649 []).mpr (Or.inr (by decide)),
    (random_number_of_length_n_out_of_range.2 0 []).mpr (Or.inl rfl),
    fun h => absurd ((random_number_of_length_n_out_of_range.2 9 []).mp h) (by decide)⟩

/-- The digit string fits the type: for every integer type and every length with
`0 < length < count_digits(max)`, every digit string of that length, of which
`10^length - 1` is the largest, denotes a number that is at most `max`; hence,
for a type that is not a character type, the extraction never overflows, and
the value returned is the decimal value of the generated digit string. -/
theorem random_number_of_length_n_fits (T : IntType) (length_of_number : Nat) (d : Int)
    (hd : count_digits T.max = some d) (hpos : 0 < length_of_number)
    (hlt : (length_of_number : Int) < d) :
    (10 : Int) ^ length_of_number - 1 ≤ T.max ∧
    (∀ s : Str, s.length = length_of_number → (∀ c ∈ s, c ∈ dist_chars) →
      (decimal_value s : Int) ≤ T.max ∧
      (T.is_char = false → stream_extract T s = (decimal_value s : Int))) ∧
    (T.is_char = false → ∀ (picks : List Nat) (r : Int),
      random_number_of_length_n T length_of_number picks = .ok r →
      ∃ s : Str, random_digits_loop length_of_number length_of_number [] picks = .ok s ∧
        s.length = length_of_number ∧ r = (decimal_value s : Int)) := by
  have hmax := pow_le_of_length_check T.max T.max_nonneg d length_of_number hd hlt
  have hfit : ∀ s : Str, s.length = length_of_number → (∀ c ∈ s, c ∈ dist_chars) →
      (decimal_value s : Int) ≤ T.max := by
    intro s hl hs
    have h1 := decimal_value_lt s hs
    rw [hl] at h1
    have : (decimal_value s : Int) < (10 : Int) ^ length_of_number := by exact_mod_cast h1
    omega
  refine ⟨by omega, ?_, ?_⟩
  · intro s hl hs
    exact ⟨hfit s hl hs, fun hT => stream_extract_number T hT s hs (hfit s hl hs)⟩
  · intro hT picks r h
    obtain ⟨_, s, _, _, _, hloop, hr⟩ := random_number_of_length_n_ok h
    have hs := random_digits_loop_ok length_of_number hpos picks s hloop
    refine ⟨s, hloop, hs.1, ?_⟩
    rw [hr]
    exact stream_extract_number T hT s hs.2.1 (hfit s hs.1 hs.2.1)

/-- The digit string fits `int` at length 9: `10^9 - 1` is at most 2147483647. -/
theorem random_number_of_length_n_fits_witness :
    count_digits int32.max = some 10 ∧ 0 < 9 ∧ ((9 : Nat) : Int) < 10 ∧
    ((10 : Int) ^ 9 - 1 ≤ int32.max ∧
    (∀ s : Str, s.length = 9 → (∀ c ∈ s, c ∈ dist_chars) →
      (decimal_value s : Int) ≤ int32.max ∧
      (int32.is_char = false → stream_extract int32 s = (decimal_value s : Int))) ∧
    (int32.is_char = false → ∀ (picks : List Nat) (r : Int),
      random_number_of_length_n int32 9 picks = .ok r →
      ∃ s : Str, random_digits_loop 9 9 [] picks = .ok s ∧
        s.length = 9 ∧ r = (decimal_value s : Int))) :=
  ⟨by decide, by decide, by decide,
    random_number_of_length_n_fits int32 9 10 (by decide) (by decide) (by decide)⟩

/-- C7 fails on the code for the character types, for which the extraction
`ss_for_num >> return_num` reads one character and not a number: with
`signed char`, whose maximum 127 has 3 digits, the length 2 is accepted, and on
the picks 0 and 1 the digit string is `12`, which fits, but the value returned
is 49, the code of the character `1`, and not the decimal value 12. -/
theorem random_number_of_length_n_signed_char :
    count_digits signed_char.max = some 3 ∧
    random_digits_loop 2 2 [] [0, 1] = .ok "12".toList ∧
    decimal_value "12".toList = 12 ∧
    random_number_of_length_n signed_char 2 [0, 1] = .ok 49 ∧
    (49 : Int) ≠ ((decimal_value "12".toList : Nat) : Int) := by
  decide

/-! ## Theorems on `number_as_binary` -/

/-- The bit computed as `(num >> i) & 1` is the bit `i` of the two's complement
representation of `num`. -/
theorem bit_char_eq_testBit (num : Int) (i : Nat) :
    bit_char num i = if num.testBit i then '1' else '0' := by
  unfold bit_char
  cases num with
  | ofNat m =>
    have hs : (Int.ofNat m) >>> i = ((m / 2 ^ i : Nat) : Int) := by
      rw [Int.shiftRight_eq_div_pow]; norm_cast
    have ht : (Int.ofNat m).testBit i = m.testBit i := rfl
    rw [hs, ht, Nat.testBit_to_div_mod]
    have h2 : (((m / 2 ^ i : Nat) : Int) % 2).toNat = m / 2 ^ i % 2 := by omega
    rw [h2]
    rcases Nat.mod_two_eq_zero_or_one (m / 2 ^ i) with h | h <;> rw [h] <;> decide
  | negSucc m =>
    have hs : (Int.negSucc m) >>> i = Int.negSucc (m / 2 ^ i) := by
      show Int.negSucc (m >>> i) = _
      rw [Nat.shiftRight_eq_div_pow]
    have ht : (Int.negSucc m).testBit i = !(m.testBit i) := rfl
    rw [hs, ht, Nat.testBit_to_div_mod]
    have h2 : ((Int.negSucc (m / 2 ^ i)) % 2).toNat = 1 - m / 2 ^ i % 2 := by
      rw [Int.negSucc_emod _ (by norm_num)]
      omega
    rw [h2]
    rcases Nat.mod_two_eq_zero_or_one (m / 2 ^ i) with h | h <;> rw [h] <;> decide

theorem bit_char_value (num : Int) (i : Nat) :
    ((bit_char num i).toNat - 48 : Nat) = ((num >>> i) % 2).toNat ∧
      (bit_char num i = '0' ∨ bit_char num i = '1') := by
  have h := Int.emod_two_eq (num >>> i)
  unfold bit_char
  rcases h with h | h <;> rw [h] <;> decide

theorem msb_first_bits_length (num : Int) : ∀ n, (msb_first_bits num n).length = n := by
  intro n
  induction n with
  | zero => rfl
  | succ n ih => simp [msb_first_bits, ih]

theorem msb_first_bits_getElem? (num : Int) :
    ∀ n j, j < n → (msb_first_bits num n)[j]? = some (bit_char num (n - 1 - j)) := by
  intro n
  induction n with
  | zero => intro j hj; omega
  | succ n ih =>
    intro j hj
    cases j with
    | zero => simp [msb_first_bits]
    | succ j =>
      simp only [msb_first_bits, List.getElem?_cons_succ]
      rw [ih j (by omega)]
      congr 2
      omega

theorem msb_first_bits_add (num : Int) (h : Nat) :
    ∀ a, ∃ top : Str, top.length = a ∧
      msb_first_bits num (a + h) = top ++ msb_first_bits num h := by
  intro a
  induction a with
  | zero => exact ⟨[], rfl, by simp⟩
  | succ a ih =>
    obtain ⟨top, hl, ht⟩ := ih
    refine ⟨bit_char num (a + h) :: top, by simp [hl], ?_⟩
    rw [show a + 1 + h = (a + h) + 1 by omega, msb_first_bits, ht]
    rfl

/-- The loop overwrites the `n` cells before position `size` with the bits
`n-1, ..., 0` and leaves the rest of the buffer as it was. -/
theorem number_as_binary_loop_eq (num : Int) (size : Nat) :
    ∀ (n : Nat) (pre mid post : List Char), mid.length = n → pre.length + n = size →
      number_as_binary_loop num size n (pre ++ mid ++ post) =
        pre ++ msb_first_bits num n ++ post := by
  intro n
  induction n with
  | zero =>
    intro pre mid post hm _
    have : mid = [] := List.length_eq_zero.mp hm
    subst this
    simp [number_as_binary_loop, msb_first_bits]
  | succ n ih =>
    intro pre mid post hm hp
    cases mid with
    | nil => simp at hm
    | cons x mid =>
      simp only [List.length_cons, Nat.add_right_cancel_iff] at hm
      have hidx : size - n - 1 = pre.length := by omega
      have hset : (pre ++ x :: mid ++ post).set (size - n - 1) (bit_char num n) =
          (pre ++ [bit_char num n]) ++ mid ++ post := by
        rw [hidx]
        simp [List.set_append]
      rw [number_as_binary_loop, hset,
        ih (pre ++ [bit_char num n]) mid post hm (by simp; omega)]
      simp [msb_first_bits]

theorem c_str_of_terminated (a b : List Char) (ha : ∀ c ∈ a, c ≠ Char.ofNat 0) :
    c_str (a ++ Char.ofNat 0 :: b) = a := by
  unfold c_str
  induction a with
  | nil => simp
  | cons c a ih =>
    have hc : (c != Char.ofNat 0) = true := by
      simpa using ha c (List.mem_cons_self _ _)
    simp only [List.cons_append, List.takeWhile_cons, hc, if_true]
    rw [ih (fun x hx => ha x (List.mem_cons_of_mem _ hx))]

theorem msb_first_bits_chars (num : Int) :
    ∀ n, ∀ c ∈ msb_first_bits num n, c = '0' ∨ c = '1' := by
  intro n
  induction n with
  | zero => intro c hc; simp [msb_first_bits] at hc
  | succ n ih =>
    intro c hc
    simp only [msb_first_bits, List.mem_cons] at hc
    rcases hc with rfl | hc
    · exact (bit_char_value num n).2
    · exact ih c hc

/-- Filling the first `size` cells of a longer buffer and terminating at
`size` yields the C string of the bits `size-1, ..., 0`. -/
theorem number_as_binary_string (num : Int) (size : Nat) (buffer : List Char)
    (hbuf : size < buffer.length) :
    c_str ((number_as_binary_loop num size size buffer).set size (Char.ofNat 0)) =
      msb_first_bits num size := by
  have hsplit : buffer = [] ++ buffer.take size ++ buffer.drop size := by simp
  have hpost : ∃ x post, buffer.drop size = x :: post := by
    cases hd : buffer.drop size with
    | nil =>
      have := congrArg List.length hd
      simp only [List.length_drop, List.length_nil] at this
      omega
    | cons x post => exact ⟨x, post, rfl⟩
  obtain ⟨x, post, hd⟩ := hpost
  rw [hsplit, number_as_binary_loop_eq num size size [] (buffer.take size) (buffer.drop size)
    (by simp; omega) (by simp), hd]
  have hset : ([] ++ msb_first_bits num size ++ x :: post).set size (Char.ofNat 0) =
      msb_first_bits num size ++ Char.ofNat 0 :: post := by
    have hl := msb_first_bits_length num size
    simp only [List.nil_append]
    rw [List.set_append_right _ _ (by omega)]
    simp [hl]
  rw [hset]
  apply c_str_of_terminated
  intro c hc
  rcases msb_first_bits_chars num size c hc with rfl | rfl <;> decide

/-- Both branches of `number_as_binary` return the bits below `size`. -/
theorem number_as_binary_eq (T : IntType) (num : Int) (shorten : Bool) (buffer : List Char)
    (hbuf : buffer.length = T.bits + 1) :
    number_as_binary T num shorten buffer =
      msb_first_bits num (if shorten then T.bits / 2 else T.bits) := by
  unfold number_as_binary
  unfold IntType.bits at hbuf ⊢
  cases shorten with
  | true =>
    simp only [if_true]
    exact number_as_binary_string num _ buffer (by omega)
  | false =>
    simp only [Bool.false_eq_true, if_false]
    exact number_as_binary_string num _ buffer (by omega)

theorem binary_value_cons (c : Char) (s : Str) :
    binary_value (c :: s) = (c.toNat - 48) * 2 ^ s.length + binary_value s := by
  simp only [binary_value, List.foldl_cons]
  rw [foldl_digits_acc 2 s]
  simp

theorem emod_two_pow_succ (num : Int) (w : Nat) :
    num % 2 ^ (w + 1) = (num / 2 ^ w % 2) * 2 ^ w + num % 2 ^ w := by
  have hP : (0 : Int) < 2 ^ w := pow_pos (by norm_num) w
  have h1 := Int.emod_add_ediv num (2 ^ w)
  have h2 := Int.emod_add_ediv (num / 2 ^ w) 2
  have hr0 := Int.emod_nonneg num (ne_of_gt hP)
  have hr1 := Int.emod_lt_of_pos num hP
  have hb0 := Int.emod_nonneg (num / 2 ^ w) (by norm_num : (2 : Int) ≠ 0)
  have hb1 := Int.emod_lt_of_pos (num / 2 ^ w) (by norm_num : (0 : Int) < 2)
  have hnum : num = (num / 2 ^ w % 2) * 2 ^ w + num % 2 ^ w +
      2 ^ (w + 1) * (num / 2 ^ w / 2) := by
    rw [pow_succ]
    nlinarith
  have hlo : 0 ≤ (num / 2 ^ w % 2) * 2 ^ w + num % 2 ^ w := by positivity
  have hhi : (num / 2 ^ w % 2) * 2 ^ w + num % 2 ^ w < 2 ^ (w + 1) := by
    rw [pow_succ]
    nlinarith
  conv_lhs => rw [hnum]
  rw [Int.add_mul_emod_self_left]
  exact Int.emod_eq_of_lt hlo hhi

/-- Read in base 2, the bits `n-1, ..., 0` of `num` give `num` modulo `2^n`. -/
theorem binary_value_msb_first_bits (num : Int) :
    ∀ n, (binary_value (msb_first_bits num n) : Int) = num % 2 ^ n := by
  intro n
  induction n with
  | zero => simp [msb_first_bits, binary_value]
  | succ n ih =>
    rw [msb_first_bits, binary_value_cons, (bit_char_value num n).1, msb_first_bits_length,
      emod_two_pow_succ, ← ih, Int.shiftRight_eq_div_pow]
    push_cast
    rw [Int.toNat_of_nonneg (Int.emod_nonneg _ (by norm_num))]

/-- C9: `number_as_binary(num, false)` renders the full bit pattern. For a
type of `w` bits the result has exactly `w` characters, each `0` or `1`, the
character at position `j` is the bit `w-1-j` of `num`, and read as a base-2
numeral the string gives `num` modulo `2^w`. -/
theorem number_as_binary_full (T : IntType) (num : Int) (buffer : List Char)
    (hbuf : buffer.length = T.bits + 1) :
    (number_as_binary T num false buffer).length = T.bits ∧
    (∀ c ∈ number_as_binary T num false buffer, c = '0' ∨ c = '1') ∧
    (∀ j, j < T.bits → (number_as_binary T num false buffer)[j]? =
      some (if num.testBit (T.bits - 1 - j) then '1' else '0')) ∧
    (binary_value (number_as_binary T num false buffer) : Int) = num % 2 ^ T.bits := by
  rw [number_as_binary_eq T num false buffer hbuf]
  simp only [Bool.false_eq_true, if_false]
  refine ⟨msb_first_bits_length num _, msb_first_bits_chars num _, ?_,
    binary_value_msb_first_bits num _⟩
  intro j hj
  rw [msb_first_bits_getElem? num _ j hj, bit_char_eq_testBit]

/-- C9, on the input of the test: 2 as a 32-bit `int`. -/
theorem number_as_binary_full_witness :
    (fresh_buffer int32).length = int32.bits + 1 ∧
    number_as_binary int32 2 false (fresh_buffer int32) =
      "00000000000000000000000000000010".toList ∧
    ((number_as_binary int32 2 false (fresh_buffer int32)).length = int32.bits ∧
    (∀ c ∈ number_as_binary int32 2 false (fresh_buffer int32), c = '0' ∨ c = '1') ∧
    (∀ j, j < int32.bits → (number_as_binary int32 2 false (fresh_buffer int32))[j]? =
      some (if (2 : Int).testBit (int32.bits - 1 - j) then '1' else '0')) ∧
    (binary_value (number_as_binary int32 2 false (fresh_buffer int32)) : Int) =
      2 % 2 ^ int32.bits) :=
  ⟨by decide, by decide, number_as_binary_full int32 2 (fresh_buffer int32) (by decide)⟩

/-- C10: `number_as_binary(num, true)` has exactly `w/2` characters and is the
string of the last `w/2` characters of `number_as_binary(num, false)`, whatever
the static buffer held before either call. -/
theorem number_as_binary_shorten (T : IntType) (num : Int) (buffer1 buffer2 : List Char)
    (hbuf1 : buffer1.length = T.bits + 1) (hbuf2 : buffer2.length = T.bits + 1) :
    (number_as_binary T num true buffer1).length = T.bits / 2 ∧
    number_as_binary T num true buffer1 =
      (number_as_binary T num false buffer2).drop
        ((number_as_binary T num false buffer2).length - T.bits / 2) := by
  rw [number_as_binary_eq T num true buffer1 hbuf1, number_as_binary_eq T num false buffer2 hbuf2]
  simp only [Bool.false_eq_true, if_false, if_true]
  refine ⟨msb_first_bits_length num _, ?_⟩
  rw [msb_first_bits_length]
  obtain ⟨top, hl, ht⟩ := msb_first_bits_add num (T.bits / 2) (T.bits - T.bits / 2)
  have hsum : T.bits - T.bits / 2 + T.bits / 2 = T.bits := by omega
  rw [hsum] at ht
  rw [ht, ← hl, List.drop_left]

/-- C10, on the input of the test: 2 as a 32-bit `int` gives `0000000000000010`. -/
theorem number_as_binary_shorten_witness :
    (fresh_buffer int32).length = int32.bits + 1 ∧
    number_as_binary int32 2 true (fresh_buffer int32) = "0000000000000010".toList ∧
    ((number_as_binary int32 2 true (fresh_buffer int32)).length = int32.bits / 2 ∧
    number_as_binary int32 2 true (fresh_buffer int32) =
      (number_as_binary int32 2 false (fresh_buffer int32)).drop
        ((number_as_binary int32 2 false (fresh_buffer int32)).length - int32.bits / 2)) :=
  ⟨by decide, by decide,
    number_as_binary_shorten int32 2 (fresh_buffer int32) (fresh_buffer int32)
      (by decide) (by decide)⟩

/-! ## Theorems on `random_string_of_length_n` -/

theorem sample_int_distribution_contract : uniform_int_contract sample_int_distribution := by
  intro a b gen hab
  unfold sample_int_distribution
  have hpos : (0 : Int) < b - a + 1 := by omega
  have h1 := Int.emod_nonneg (gen : Int) (ne_of_gt hpos)
  have h2 := Int.emod_lt_of_pos (gen : Int) hpos
  omega

/-- C12: with a distribution that keeps the contract of
`std::uniform_int_distribution`, `random_integer_from_range_x_to_y(lo, hi)`
returns, for every `lo <= hi` and every state of the random source, a value `v`
with `lo <= v <= hi`; for `lo == hi` the value is `lo`. -/
theorem random_integer_from_range_x_to_y_in_range (distribution : Int → Int → Nat → Int)
    (hdist : uniform_int_contract distribution) (rd : Nat) (lo hi : Int) (h : lo ≤ hi) :
    lo ≤ random_integer_from_range_x_to_y distribution rd lo hi ∧
    random_integer_from_range_x_to_y distribution rd lo hi ≤ hi ∧
    (lo = hi → random_integer_from_range_x_to_y distribution rd lo hi = lo) := by
  have hc := hdist lo hi rd h
  simp only [random_integer_from_range_x_to_y]
  refine ⟨hc.1, hc.2, ?_⟩
  intro heq
  omega

/-- C12, on the ranges of the tests: (5,9), (1,19), (1000,9999) and (10,10). -/
theorem random_integer_from_range_x_to_y_in_range_witness :
    uniform_int_contract sample_int_distribution ∧
    ((5 : Int) ≤ 9 ∧
      5 ≤ random_integer_from_range_x_to_y sample_int_distribution 12345 5 9 ∧
      random_integer_from_range_x_to_y sample_int_distribution 12345 5 9 ≤ 9) ∧
    ((1 : Int) ≤ 19 ∧
      1 ≤ random_integer_from_range_x_to_y sample_int_distribution 12345 1 19 ∧
      random_integer_from_range_x_to_y sample_int_distribution 12345 1 19 ≤ 19) ∧
    ((1000 : Int) ≤ 9999 ∧
      1000 ≤ random_integer_from_range_x_to_y sample_int_distribution 12345 1000 9999 ∧
      random_integer_from_range_x_to_y sample_int_distribution 12345 1000 9999 ≤ 9999) ∧
    ((10 : Int) ≤ 10 ∧
      random_integer_from_range_x_to_y sample_int_distribution 12345 10 10 = 10) :=
  ⟨sample_int_distribution_contract,
    ⟨by decide,
      (random_integer_from_range_x_to_y_in_range sample_int_distribution
        sample_int_distribution_contract 12345 5 9 (by decide)).1,
      (random_integer_from_range_x_to_y_in_range sample_int_distribution
        sample_int_distribution_contract 12345 5 9 (by decide)).2.1⟩,
    ⟨by decide,
      (random_integer_from_range_x_to_y_in_range sample_int_distribution
        sample_int_distribution_contract 12345 1 19 (by decide)).1,
      (random_integer_from_range_x_to_y_in_range sample_int_distribution
        sample_int_distribution_contract 12345 1 19 (by decide)).2.1⟩,
    ⟨by decide,
      (random_integer_from_range_x_to_y_in_range sample_int_distribution
        sample_int_distribution_contract 12345 1000 9999 (by decide)).1,
      (random_integer_from_range_x_to_y_in_range sample_int_distribution
        sample_int_distribution_contract 12345 1000 9999 (by decide)).2.1⟩,
    ⟨by decide,
      (random_integer_from_range_x_to_y_in_range sample_int_distribution
        sample_int_distribution_contract 12345 10 10 (by decide)).2.2 rfl⟩⟩

/-! ## Theorems on `get_current_timestamp` -/

set_option maxRecDepth 100000 in
/-- Below 100, the two-digit conversion gives two decimal digits that denote
the number. -/
theorem two_digits_spec : ∀ n, n < 100 →
    (two_digits n).length = 2 ∧ decimal_value (two_digits n) = n ∧
      ∀ c ∈ two_digits n, c.isDigit = true := by
  decide

set_option maxRecDepth 1000000 in
/-- Below 1000, the decimal text padded with `0` to width 3 has three decimal
digits that denote the number. -/
theorem three_digits_spec : ∀ n, n < 1000 →
    (pad_left 3 '0' (Nat.toDigits 10 n)).length = 3 ∧
      decimal_value (pad_left 3 '0' (Nat.toDigits 10 n)) = n ∧
      ∀ c ∈ pad_left 3 '0' (Nat.toDigits 10 n), c.isDigit = true := by
  decide

theorem int_to_string_natCast (n : Nat) : int_to_string (n : Int) = Nat.toDigits 10 n := by
  unfold int_to_string
  rw [if_neg (by omega)]
  simp

/-- At or after the epoch, the function writes the local time of the whole
seconds and the milliseconds that remain. -/
theorem get_current_timestamp_eq (localtime : Int → Tm) (ticks_per_ms n : Nat) :
    get_current_timestamp localtime ticks_per_ms (n : Int) =
      timestamp_text (localtime ((n / (ticks_per_ms * 1000) : Nat) : Int)).tm_hour
        (localtime ((n / (ticks_per_ms * 1000) : Nat) : Int)).tm_min
        (localtime ((n / (ticks_per_ms * 1000) : Nat) : Int)).tm_sec
        (n / ticks_per_ms % 1000) := by
  have h1 : (n : Int).tdiv ((ticks_per_ms : Int) * 1000) =
      ((n / (ticks_per_ms * 1000) : Nat) : Int) := by
    rw [Int.ofNat_tdiv]; push_cast; rfl
  have h2 : ((n : Int).tdiv (ticks_per_ms : Int)).tmod 1000 =
      ((n / ticks_per_ms % 1000 : Nat) : Int) := by
    rw [Int.ofNat_tmod, Int.ofNat_tdiv]; rfl
  simp only [get_current_timestamp, h1, h2, OStream.put_int, int_to_string_natCast,
    OStream.write, OStream.setw, OStream.setfill, OStream.put_time_T, OStream.init,
    timestamp_text, pad_left]
  simp

/-- The shape of the text `HH:MM:SS.mmm`. -/
theorem timestamp_text_format (h m s ms : Nat) (hh : h < 100) (hm : m < 100) (hs : s < 100)
    (hms : ms < 1000) :
    (timestamp_text h m s ms).length = 12 ∧
    (timestamp_text h m s ms)[2]? = some ':' ∧
    (timestamp_text h m s ms)[5]? = some ':' ∧
    (timestamp_text h m s ms)[8]? = some '.' ∧
    (∀ j, j < 12 → j ≠ 2 → j ≠ 5 → j ≠ 8 →
      ∃ c, (timestamp_text h m s ms)[j]? = some c ∧ c.isDigit = true) ∧
    decimal_value ((timestamp_text h m s ms).take 2) = h ∧
    decimal_value (((timestamp_text h m s ms).drop 3).take 2) = m ∧
    decimal_value (((timestamp_text h m s ms).drop 6).take 2) = s ∧
    decimal_value ((timestamp_text h m s ms).drop 9) = ms := by
  obtain ⟨lh, vh, dh⟩ := two_digits_spec h hh
  obtain ⟨lm, vm, dm⟩ := two_digits_spec m hm
  obtain ⟨ls, vs, ds⟩ := two_digits_spec s hs
  obtain ⟨lms, vms, dms⟩ := three_digits_spec ms hms
  unfold timestamp_text
  obtain ⟨a0, a1, ha⟩ := List.length_eq_two.mp lh
  obtain ⟨b0, b1, hb⟩ := List.length_eq_two.mp lm
  obtain ⟨c0, c1, hc⟩ := List.length_eq_two.mp ls
  obtain ⟨d0, d1, d2, hd⟩ := List.length_eq_three.mp lms
  rw [ha] at vh dh
  rw [hb] at vm dm
  rw [hc] at vs ds
  rw [hd] at vms dms
  rw [ha, hb, hc, hd]
  simp only [List.mem_cons, List.mem_singleton, List.not_mem_nil, or_false, forall_eq_or_imp,
    forall_eq] at dh dm ds dms
  refine ⟨rfl, rfl, rfl, rfl, ?_, vh, vm, vs, vms⟩
  intro j hj h2 h5 h8
  interval_cases j <;> simp_all

theorem timestamp_text_inj (h m s ms h' m' s' ms' : Nat)
    (hh : h < 100) (hm : m < 100) (hs : s < 100) (hms : ms < 1000)
    (hh' : h' < 100) (hm' : m' < 100) (hs' : s' < 100) (hms' : ms' < 1000)
    (heq : timestamp_text h m s ms = timestamp_text h' m' s' ms') :
    h = h' ∧ m = m' ∧ s = s' ∧ ms = ms' := by
  have f := timestamp_text_format h m s ms hh hm hs hms
  have f' := timestamp_text_format h' m' s' ms' hh' hm' hs' hms'
  rw [heq] at f
  exact ⟨f.2.2.2.2.2.1.symm.trans f'.2.2.2.2.2.1,
    f.2.2.2.2.2.2.1.symm.trans f'.2.2.2.2.2.2.1,
    f.2.2.2.2.2.2.2.1.symm.trans f'.2.2.2.2.2.2.2.1,
    f.2.2.2.2.2.2.2.2.symm.trans f'.2.2.2.2.2.2.2.2⟩

theorem fixed_offset_localtime_range (utc_offset t : Int) :
    (fixed_offset_localtime utc_offset t).tm_hour < 24 ∧
    (fixed_offset_localtime utc_offset t).tm_min < 60 ∧
    (fixed_offset_localtime utc_offset t).tm_sec < 60 := by
  simp only [fixed_offset_localtime]
  omega

/-- C14, for calls less than a day apart under one UTC offset: for every pair
of time points `t1`, `t2` at or after the epoch with
`1 ms <= t2 - t1 <= 24 h - 1 ms`, and a local time that keeps one offset from
UTC, the string formatted for `t1` differs from the string formatted for `t2`. -/
theorem get_current_timestamp_differs (utc_offset : Int) (ticks_per_ms : Nat) (t1 t2 : Int)
    (htpm : 0 < ticks_per_ms) (h1 : 0 ≤ t1) (hge : (ticks_per_ms : Int) ≤ t2 - t1)
    (hle : t2 - t1 ≤ 86399999 * (ticks_per_ms : Int)) :
    get_current_timestamp (fixed_offset_localtime utc_offset) ticks_per_ms t1 ≠
      get_current_timestamp (fixed_offset_localtime utc_offset) ticks_per_ms t2 := by
  obtain ⟨n1, rfl⟩ := Int.eq_ofNat_of_zero_le h1
  obtain ⟨n2, rfl⟩ := Int.eq_ofNat_of_zero_le (show (0 : Int) ≤ t2 by omega)
  have hge' : n1 + ticks_per_ms ≤ n2 := by omega
  have hle' : n2 ≤ n1 + 86399999 * ticks_per_ms := by
    have : (n2 : Int) ≤ (n1 : Int) + 86399999 * (ticks_per_ms : Int) := by omega
    exact_mod_cast this
  have hM1 : n1 / ticks_per_ms + 1 ≤ n2 / ticks_per_ms := by
    rw [← Nat.add_div_right n1 htpm]
    exact Nat.div_le_div_right hge'
  have hM2 : n2 / ticks_per_ms ≤ n1 / ticks_per_ms + 86399999 := by
    rw [← Nat.add_mul_div_right n1 86399999 htpm]
    exact Nat.div_le_div_right hle'
  have hS1 : n1 / (ticks_per_ms * 1000) = n1 / ticks_per_ms / 1000 :=
    (Nat.div_div_eq_div_mul _ _ _).symm
  have hS2 : n2 / (ticks_per_ms * 1000) = n2 / ticks_per_ms / 1000 :=
    (Nat.div_div_eq_div_mul _ _ _).symm
  intro heq
  rw [get_current_timestamp_eq, get_current_timestamp_eq, hS1, hS2] at heq
  generalize n1 / ticks_per_ms = M1 at hM1 hM2 heq
  generalize n2 / ticks_per_ms = M2 at hM1 hM2 heq
  have r1 := fixed_offset_localtime_range utc_offset ((M1 / 1000 : Nat) : Int)
  have r2 := fixed_offset_localtime_range utc_offset ((M2 / 1000 : Nat) : Int)
  obtain ⟨eh, em, es, ems⟩ := timestamp_text_inj _ _ _ _ _ _ _ _
    (by omega) (by omega) (by omega) (Nat.mod_lt _ (by norm_num))
    (by omega) (by omega) (by omega) (Nat.mod_lt _ (by norm_num)) heq
  simp only [fixed_offset_localtime] at eh em es
  omega

/-- C14, on two readings 500 ms apart, as in the test. -/
theorem get_current_timestamp_differs_witness :
    0 < 1000000 ∧ (0 : Int) ≤ 82044805999999 ∧
    ((1000000 : Nat) : Int) ≤ 82045305999999 - 82044805999999 ∧
    (82045305999999 : Int) - 82044805999999 ≤ 86399999 * ((1000000 : Nat) : Int) ∧
    get_current_timestamp (fixed_offset_localtime 3600) 1000000 82044805999999 ≠
      get_current_timestamp (fixed_offset_localtime 3600) 1000000 82045305999999 :=
  ⟨by decide, by decide, by decide, by decide,
    get_current_timestamp_differs 3600 1000000 82044805999999 82045305999999
      (by decide) (by decide) (by decide) (by decide)⟩

/-- C14 does not hold for calls a day apart: under UTC, with a clock of
1000000 ticks in a millisecond, the readings 0 and 24 hours later are
86400000 ms apart and both give `00:00:00.000`. -/
theorem get_current_timestamp_same_after_a_day :
    ((1000000 : Nat) : Int) ≤ 86400000 * 1000000 - 0 ∧
    get_current_timestamp (fixed_offset_localtime 0) 1000000 0 = "00:00:00.000".toList ∧
    get_current_timestamp (fixed_offset_localtime 0) 1000000 (86400000 * 1000000) =
      "00:00:00.000".toList ∧
    get_current_timestamp (fixed_offset_localtime 0) 1000000 0 =
      get_current_timestamp (fixed_offset_localtime 0) 1000000 (86400000 * 1000000) := by
  decide

/-! ## Theorems on `to_string` -/

/-- The fuel of `group_reversed` is enough when it is at least the number of
digits: any two such amounts of fuel give the same text. -/
theorem group_reversed_fuel (sep : Char) :
    ∀ (fuel1 fuel2 : Nat) (grouping : List Nat) (last : Nat) (rev : Str),
      rev.length ≤ fuel1 → rev.length ≤ fuel2 →
      group_reversed sep fuel1 grouping last rev = group_reversed sep fuel2 grouping last rev := by
  intro fuel1
  induction fuel1 with
  | zero =>
    intro fuel2 grouping last rev h1 _
    have hnil : rev = [] := List.length_eq_zero.mp (by omega)
    subst hnil
    cases fuel2 <;> simp [group_reversed]
  | succ f1 ih =>
    intro fuel2 grouping last rev h1 h2
    cases fuel2 with
    | zero =>
      have hnil : rev = [] := List.length_eq_zero.mp (by omega)
      subst hnil
      simp [group_reversed]
    | succ f2 =>
      simp only [group_reversed]
      split
      · rfl
      · rename_i hc
        have hc1 : grouping.headD last ≠ 0 ∧ grouping.headD last < rev.length := by
          constructor
          · intro h0; exact hc (Or.inl h0)
          · by_contra hle; exact hc (Or.inr (by omega))
        rw [ih f2 grouping.tail (grouping.headD last) (rev.drop (grouping.headD last))
          (by rw [List.length_drop]; omega) (by rw [List.length_drop]; omega)]

theorem bit_length_zero (fuel : Nat) : bit_length fuel 0 = 0 := by
  cases fuel <;> simp [bit_length]

theorem bit_length_eq :
    ∀ (k fuel a : Nat), k < fuel → 2 ^ k ≤ a → a < 2 ^ (k + 1) → bit_length fuel a = k + 1 := by
  intro k
  induction k with
  | zero =>
    intro fuel a hf h1 h2
    obtain ⟨f, rfl⟩ : ∃ f, fuel = f + 1 := ⟨fuel - 1, by omega⟩
    have ha : a = 1 := by
      simp at h1 h2
      omega
    subst ha
    simp [bit_length, bit_length_zero]
  | succ k ih =>
    intro fuel a hf h1 h2
    obtain ⟨f, rfl⟩ : ∃ f, fuel = f + 1 := ⟨fuel - 1, by omega⟩
    have hpos : 0 < 2 ^ k := Nat.pow_pos (by norm_num)
    have ha : a ≠ 0 := by
      rw [pow_succ] at h1
      omega
    have hrec := ih f (a / 2) (by omega) (by rw [pow_succ] at h1; omega)
      (by rw [pow_succ] at h2; omega)
    simp [bit_length, ha, hrec]

/-- In the binade of 1, with values written as multiples of `2^-52`, every
value below `1 + 2^-24` is rounded to 1. -/
theorem round_to_float_near_one (d : Int) (h1 : (2 : Int) ^ 52 ≤ d)
    (h2 : d < (2 : Int) ^ 52 + 2 ^ 28) : round_to_float 52 d = .finite (2 ^ 52) := by
  obtain ⟨n, rfl⟩ := Int.eq_ofNat_of_zero_le (show (0 : Int) ≤ d by positivity)
  have e52 : (2 : Int) ^ 52 = ((4503599627370496 : Nat) : Int) := by norm_num
  have e28 : (2 : Int) ^ 28 = ((268435456 : Nat) : Int) := by norm_num
  rw [e52] at h1
  rw [e52, e28] at h2
  have hn1 : 4503599627370496 ≤ n := by exact_mod_cast h1
  have hn2 : n < 4503599627370496 + 268435456 := by exact_mod_cast h2
  have hb : bit_length n n = 53 :=
    bit_length_eq 52 n n (by omega) (by norm_num; omega) (by norm_num; omega)
  unfold round_to_float
  simp only [Int.natAbs_ofNat, hb]
  have hshift : max (53 - 24) (52 - 149) = 29 := by decide
  rw [hshift]
  have p29 : (2 : Nat) ^ 29 = 536870912 := by norm_num
  rw [p29]
  have hq : n / 536870912 = 8388608 := by omega
  have hr : 2 * (n % 536870912) < 536870912 := by omega
  rw [if_pos hr, hq, if_neg (by norm_num), if_neg (by omega)]
  norm_num

/-- For `double` bounds `lo = 1 + 2^-30` and `hi = 1 + 2^-29`, every value
that the distribution can draw in `[lo, hi)` comes back as 1, below `lo`. -/
theorem random_real_from_range_x_to_y_below_lower (distribution : Int → Int → Nat → Int)
    (rd : Nat)
    (hlo : (2 : Int) ^ 52 + 2 ^ 22 ≤ distribution (2 ^ 52 + 2 ^ 22) (2 ^ 52 + 2 ^ 23) rd)
    (hhi : distribution (2 ^ 52 + 2 ^ 22) (2 ^ 52 + 2 ^ 23) rd < (2 : Int) ^ 52 + 2 ^ 23) :
    random_real_from_range_x_to_y 52 distribution rd (2 ^ 52 + 2 ^ 22) (2 ^ 52 + 2 ^ 23) =
      .finite (2 ^ 52) ∧
    fp_lt (random_real_from_range_x_to_y 52 distribution rd (2 ^ 52 + 2 ^ 22) (2 ^ 52 + 2 ^ 23))
      (.finite (2 ^ 52 + 2 ^ 22)) = true := by
  have hr := round_to_float_near_one (distribution (2 ^ 52 + 2 ^ 22) (2 ^ 52 + 2 ^ 23) rd)
    (by omega) (by omega)
  simp only [random_real_from_range_x_to_y]
  rw [hr]
  exact ⟨rfl, by decide⟩

/-- C17 fails on the code for `double`: the drawn value is stored in a `float`.
Whatever the distribution draws, the function returns the draw rounded to
`float`. With values written as multiples of `2^-52`, the bounds
`lo = 1 + 2^-30` and `hi = 1 + 2^-29`, and the draw `lo`, which lies in
`[lo, hi)`, the function returns 1, which is below `lo` and is not the draw. -/
theorem random_real_from_range_x_to_y_rounds_to_float :
    (∀ (unit_exp : Nat) (distribution : Int → Int → Nat → Int) (rd : Nat) (lo hi : Int),
      random_real_from_range_x_to_y unit_exp distribution rd lo hi =
        round_to_float unit_exp (distribution lo hi rd)) ∧
    random_real_from_range_x_to_y 52 (fun a _ _ => a) 0 (2 ^ 52 + 2 ^ 22) (2 ^ 52 + 2 ^ 23)
      = .finite (2 ^ 52) ∧
    ((2 : Int) ^ 52 + 2 ^ 22 ≤ (fun (a : Int) (_ : Int) (_ : Nat) => a)
        (2 ^ 52 + 2 ^ 22) (2 ^ 52 + 2 ^ 23) 0 ∧
      (fun (a : Int) (_ : Int) (_ : Nat) => a) (2 ^ 52 + 2 ^ 22) (2 ^ 52 + 2 ^ 23) 0 <
        (2 : Int) ^ 52 + 2 ^ 23) ∧
    fp_lt (random_real_from_range_x_to_y 52 (fun a _ _ => a) 0 (2 ^ 52 + 2 ^ 22) (2 ^ 52 + 2 ^ 23))
      (.finite (2 ^ 52 + 2 ^ 22)) = true ∧
    random_real_from_range_x_to_y 52 (fun a _ _ => a) 0 (2 ^ 52 + 2 ^ 22) (2 ^ 52 + 2 ^ 23) ≠
      .finite ((fun (a : Int) (_ : Int) (_ : Nat) => a) (2 ^ 52 + 2 ^ 22) (2 ^ 52 + 2 ^ 23) 0) :=
  ⟨fun _ _ _ _ _ => rfl, by decide, by decide, by decide, by decide⟩

/-! ## Theorems on `equal_to_n_decimal_places` -/

/-- A latch that is set stays set through any call. -/
theorem log_once_latch_stays (st : LogState) (c : LogCall) (i : Instantiation)
    (h : st.hasBeenCalled i = true) : (log_once st c).hasBeenCalled i = true := by
  unfold log_once
  by_cases hc : st.hasBeenCalled c.inst = true
  · simp only [hc, Bool.not_true, Bool.false_eq_true, if_false]
    split
    · rfl
    · exact h
  · simp only [Bool.not_eq_true] at hc
    simp only [hc, Bool.not_false, if_true]
    split
    · rfl
    · exact h

theorem log_once_sets_latch (st : LogState) (c : LogCall) :
    (log_once st c).hasBeenCalled c.inst = true := by
  unfold log_once
  simp

theorem log_once_silent (st : LogState) (c : LogCall) (h : st.hasBeenCalled c.inst = true) :
    (log_once st c).cout = st.cout := by
  unfold log_once
  simp [h]

theorem log_once_writes (st : LogState) (c : LogCall) (h : st.hasBeenCalled c.inst = false) :
    (log_once st c).cout = st.cout ++ c.line := by
  unfold log_once
  simp [h]

theorem log_once_calls_silent (i : Instantiation) :
    ∀ (calls : List LogCall) (st : LogState), (∀ d ∈ calls, d.inst = i) →
      st.hasBeenCalled i = true →
      (log_once_calls st calls).cout = st.cout ∧
        (log_once_calls st calls).hasBeenCalled i = true := by
  intro calls
  induction calls with
  | nil => intro st _ h; exact ⟨rfl, h⟩
  | cons d calls ih =>
    intro st hall h
    have hd : d.inst = i := hall d (List.mem_cons_self _ _)
    have hstep := ih (log_once st d) (fun x hx => hall x (List.mem_cons_of_mem _ hx))
      (log_once_latch_stays st d i h)
    simp only [log_once_calls, List.foldl_cons] at hstep ⊢
    rw [hstep.1, log_once_silent st d (by rw [hd]; exact h)]
    exact ⟨rfl, hstep.2⟩

theorem log_once_calls_append (st : LogState) (pre : List LogCall) (c : LogCall) :
    log_once_calls st (pre ++ [c]) = log_once (log_once_calls st pre) c := by
  simp [log_once_calls, List.foldl_append]

theorem log_once_latch_iff (st : LogState) (c : LogCall) (i : Instantiation) :
    (log_once st c).hasBeenCalled i = true ↔ st.hasBeenCalled i = true ∨ c.inst = i := by
  unfold log_once
  by_cases hi : i = c.inst
  · subst hi
    simp
  · have hi2 : ¬ c.inst = i := fun h => hi h.symm
    by_cases hc : st.hasBeenCalled c.inst = true
    · simp [hc, hi, hi2]
    · simp only [Bool.not_eq_true] at hc
      simp [hc, hi, hi2]

theorem log_once_calls_latch_iff (i : Instantiation) :
    ∀ (calls : List LogCall) (st : LogState),
      (log_once_calls st calls).hasBeenCalled i = true ↔
        st.hasBeenCalled i = true ∨ ∃ d ∈ calls, d.inst = i := by
  intro calls
  induction calls with
  | nil => intro st; simp [log_once_calls]
  | cons d calls ih =>
    intro st
    have hstep := ih (log_once st d)
    simp only [log_once_calls, List.foldl_cons] at hstep ⊢
    rw [hstep, log_once_latch_iff]
    simp only [List.mem_cons, exists_eq_or_imp]
    tauto

/-- C18, for each instantiation with its own latch: in every sequence of calls
of `log_once` from the start of the process, of whatever instantiations and
in whatever order, a call writes its line exactly when no earlier call was of
the same instantiation, and it writes nothing otherwise; the latch of an
instantiation is set exactly when a call of that instantiation has been made,
so no call of another instantiation sets it; in any state and for any call, a
latch that is set is never reset; and in a sequence of calls of one
instantiation the first call writes its message and no later call writes
anything. -/
theorem log_once_fires_once :
    (∀ (pre : List LogCall) (c : LogCall),
      (log_once_calls LogState.initial (pre ++ [c])).cout =
        (log_once_calls LogState.initial pre).cout ++
          (if ∃ d ∈ pre, d.inst = c.inst then [] else c.line)) ∧
    (∀ (calls : List LogCall) (i : Instantiation),
      (log_once_calls LogState.initial calls).hasBeenCalled i = true ↔
        ∃ d ∈ calls, d.inst = i) ∧
    (∀ (st : LogState) (d : LogCall) (j : Instantiation),
      st.hasBeenCalled j = true → (log_once st d).hasBeenCalled j = true) ∧
    (∀ (i : Instantiation) (c : LogCall) (calls : List LogCall), c.inst = i →
      (∀ d ∈ calls, d.inst = i) →
      (log_once_calls LogState.initial (c :: calls)).cout = c.line) := by
  have hlatch : ∀ (calls : List LogCall) (i : Instantiation),
      (log_once_calls LogState.initial calls).hasBeenCalled i = true ↔
        ∃ d ∈ calls, d.inst = i := by
    intro calls i
    rw [log_once_calls_latch_iff i calls LogState.initial]
    simp [LogState.initial]
  refine ⟨?_, hlatch, log_once_latch_stays, ?_⟩
  · intro pre c
    rw [log_once_calls_append]
    by_cases h : ∃ d ∈ pre, d.inst = c.inst
    · rw [if_pos h, List.append_nil]
      exact log_once_silent _ c ((hlatch pre c.inst).mpr h)
    · rw [if_neg h]
      refine log_once_writes _ c ?_
      cases hb : (log_once_calls LogState.initial pre).hasBeenCalled c.inst with
      | false => rfl
      | true => exact absurd ((hlatch pre c.inst).mp hb) h
  · intro i c calls hc hcalls
    have hfirst : (log_once LogState.initial c).cout = c.line := by
      rw [log_once_writes LogState.initial c rfl]
      simp [LogState.initial]
    have hrest := log_once_calls_silent i calls (log_once LogState.initial c) hcalls
      (by rw [← hc]; exact log_once_sets_latch _ _)
    simp only [log_once_calls, List.foldl_cons] at hrest ⊢
    rw [hrest.1, hfirst]

/-- C18, on the interleaved calls `log_once("m", 1, 2)`, `log_once("n", 1.5, 2)`
and `log_once("o", 5, 6)`: the third call is of the same instantiation as the
first and writes nothing, while the second, of another instantiation, has
written its line. -/
theorem log_once_fires_once_witness :
    (log_once_calls LogState.initial
      ([⟨⟨"const char*", "int", "int"⟩, "m".toList, "1".toList, "2".toList⟩,
        ⟨⟨"const char*", "double", "int"⟩, "n".toList, "1.5".toList, "2".toList⟩] ++
        [⟨⟨"const char*", "int", "int"⟩, "o".toList, "5".toList, "6".toList⟩])).cout =
      (log_once_calls LogState.initial
        [⟨⟨"const char*", "int", "int"⟩, "m".toList, "1".toList, "2".toList⟩,
          ⟨⟨"const char*", "double", "int"⟩, "n".toList, "1.5".toList, "2".toList⟩]).cout ++
        (if ∃ d ∈ [(⟨⟨"const char*", "int", "int"⟩, "m".toList, "1".toList, "2".toList⟩ : LogCall),
            ⟨⟨"const char*", "double", "int"⟩, "n".toList, "1.5".toList, "2".toList⟩],
            d.inst = (⟨⟨"const char*", "int", "int"⟩, "o".toList, "5".toList, "6".toList⟩ :
              LogCall).inst
          then [] else (⟨⟨"const char*", "int", "int"⟩, "o".toList, "5".toList, "6".toList⟩ :
            LogCall).line) ∧
    (log_once_calls LogState.initial
      [⟨⟨"const char*", "int", "int"⟩, "m".toList, "1".toList, "2".toList⟩,
        ⟨⟨"const char*", "double", "int"⟩, "n".toList, "1.5".toList, "2".toList⟩,
        ⟨⟨"const char*", "int", "int"⟩, "o".toList, "5".toList, "6".toList⟩]).cout =
      "m:[1] [2]\nn:[1.5] [2]\n".toList :=
  ⟨log_once_fires_once.1 _ _, by decide⟩

/-- C18 does not hold across instantiations: after `log_once("m", 1, 2)` the
call `log_once("n", 1.5, 2)`, which is a call of another instantiation with a
latch of its own, writes its message too. -/
theorem log_once_second_instantiation_writes :
    (log_once_calls LogState.initial
      [⟨⟨"const char*", "int", "int"⟩, "m".toList, "1".toList, "2".toList⟩,
        ⟨⟨"const char*", "double", "int"⟩, "n".toList, "1.5".toList, "2".toList⟩]).cout =
      "m:[1] [2]\nn:[1.5] [2]\n".toList := by
  decide

/-! ## The failure causes and the frame of `deserialize_key_value` -/

theorem scan_join_items_fail (es is : Char) (tail : Str) :
    ∀ (ps : List (Str × Str)) (m : StrMap), well_formed_pairs es is ps →
      ((tail ≠ [] ∧ es ∉ tail) ∨
        ∃ k t, tail = k ++ es :: t ∧ es ∉ k ∧ map_contains (m ++ ps) k = true) →
      ∃ m', Scan es is (join_items es is ps ++ tail) m (false, m') := by
  intro ps
  induction ps with
  | nil =>
    intro m _ hcause
    rcases hcause with ⟨hne, hes⟩ | ⟨k, t, rfl, hk, hc⟩
    · exact ⟨m, by simpa [join_items] using Scan.malformed tail m hne hes⟩
    · exact ⟨m, by simpa [join_items] using Scan.duplicate k t m hk (by simpa using hc)⟩
  | cons p ps ih =>
    intro m hwf hcause
    have hp := hwf p (List.mem_cons_self _ _)
    have hwf2 : well_formed_pairs es is ps := fun x hx => hwf x (List.mem_cons_of_mem _ hx)
    cases hpm : map_contains m p.1 with
    | true => exact ⟨m, by simpa [join_items] using Scan.duplicate p.1 _ m hp.1 hpm⟩
    | false =>
      have hcause2 : (tail ≠ [] ∧ es ∉ tail) ∨
          ∃ k t, tail = k ++ es :: t ∧ es ∉ k ∧ map_contains ((m ++ [p]) ++ ps) k = true := by
        rcases hcause with h | ⟨k, t, ht, hk, hc⟩
        · exact Or.inl h
        · exact Or.inr ⟨k, t, ht, hk, by simpa using hc⟩
      obtain ⟨m', hm'⟩ := ih (m ++ [p]) hwf2 hcause2
      exact ⟨m', by simpa [join_items] using Scan.more p.1 p.2 _ m _ hp.1 hp.2 hpm hm'⟩

/-- Every scan leaves the map it started with as the beginning of the map it
ends with. -/
theorem scan_extends {es is : Char} {rest : Str} {m : StrMap} {r : Bool × StrMap}
    (h : Scan es is rest m r) : ∃ ps, r.2 = m ++ ps := by
  induction h with
  | done m => exact ⟨[], by simp⟩
  | malformed rest m _ _ => exact ⟨[], by simp⟩
  | duplicate k t m _ _ => exact ⟨[], by simp⟩
  | last k v m _ _ _ => exact ⟨[(k, v)], rfl⟩
  | more k v t m r _ _ _ _ ih =>
    obtain ⟨ps, hps⟩ := ih
    exact ⟨(k, v) :: ps, by simp [hps]⟩

theorem map_find_append_left (m n : StrMap) (k v : Str) (h : map_find m k = some v) :
    map_find (m ++ n) k = some v := by
  induction m with
  | nil => simp [map_find] at h
  | cons a m ih =>
    obtain ⟨a1, a2⟩ := a
    simp only [map_find, List.cons_append, List.lookup_cons] at h ⊢
    cases hk : (k == a1) with
    | true => rw [hk] at h; exact h
    | false => rw [hk] at h; exact ih h

/-- C19: the two documented failure causes are the only ones. If
`deserialize_key_value` returns false, the scan reached, after a run of
well-formed items, a non-empty unread part without `element_sep` or a key that
was already in the map; conversely each of these makes the call return false;
in every other case the call returns true, and on the empty input it returns
true and leaves the map unchanged. -/
theorem deserialize_key_value_failure_causes (es is : Char) :
    (∀ (s : Str) (m m' : StrMap), deserialize_key_value s es is m = some (false, m') →
      failure_cause es is s m) ∧
    (∀ (s : Str) (m : StrMap), failure_cause es is s m →
      ∃ m', deserialize_key_value s es is m = some (false, m')) ∧
    (∀ (s : Str) (m : StrMap), ¬ failure_cause es is s m →
      ∃ m', deserialize_key_value s es is m = some (true, m')) ∧
    (∀ m : StrMap, deserialize_key_value [] es is m = some (true, m)) := by
  have hfalse : ∀ (s : Str) (m m' : StrMap),
      deserialize_key_value s es is m = some (false, m') → failure_cause es is s m := by
    intro s m m' h
    obtain ⟨r, hr⟩ := scan_total es is s.length s m (Nat.le_refl _)
    have hrun := deserialize_of_scan hr
    rw [h] at hrun
    have hreq : r = (false, m') := (Option.some.inj hrun).symm
    subst hreq
    obtain ⟨ps, tail, hs, hwf, _, _, _, hcause⟩ := scan_false_inv hr rfl
    exact ⟨ps, tail, hs, hwf, hcause⟩
  refine ⟨hfalse, ?_, ?_, ?_⟩
  · rintro s m ⟨ps, tail, rfl, hwf, hcause⟩
    obtain ⟨m', hm'⟩ := scan_join_items_fail es is tail ps m hwf hcause
    exact ⟨m', deserialize_of_scan hm'⟩
  · intro s m hno
    obtain ⟨⟨b, m'⟩, hr⟩ := deserialize_key_value_total s es is m
    cases b with
    | true => exact ⟨m', hr⟩
    | false => exact absurd (hfalse s m m' hr) hno
  · intro m
    exact deserialize_of_scan (Scan.done m)

/-- C19, on `a=b&c`, which fails at the unread part `c`, and on the empty
input, which succeeds. -/
theorem deserialize_key_value_failure_causes_witness :
    deserialize_key_value "a=b&c".toList '=' '&' [] = some (false, [("a".toList, "b".toList)]) ∧
    failure_cause '=' '&' "a=b&c".toList [] ∧
    deserialize_key_value [] '=' '&' [("a".toList, "b".toList)] =
      some (true, [("a".toList, "b".toList)]) :=
  ⟨by decide,
    (deserialize_key_value_failure_causes '=' '&').1 "a=b&c".toList []
      [("a".toList, "b".toList)] (by decide),
    (deserialize_key_value_failure_causes '=' '&').2.2.2 [("a".toList, "b".toList)]⟩

/-- C20: `deserialize_key_value` never removes or rewrites an entry. For
every initial map, every input and both outcomes, the call returns, the final
map starts with the initial map, every key of the initial map is still found
with the same value, and the size of the map does not decrease. -/
theorem deserialize_key_value_frame (es is : Char) (s : Str) (m : StrMap) :
    ∃ (b : Bool) (m' : StrMap), deserialize_key_value s es is m = some (b, m') ∧
      (∃ ps, m' = m ++ ps) ∧
      (∀ k v, map_find m k = some v → map_find m' k = some v) ∧
      (∀ k, map_contains m k = true → map_contains m' k = true) ∧
      map_size m ≤ map_size m' := by
  obtain ⟨r, hr⟩ := scan_total es is s.length s m (Nat.le_refl _)
  obtain ⟨ps, hps⟩ := scan_extends hr
  obtain ⟨b, m'⟩ := r
  simp only at hps
  subst hps
  refine ⟨b, m ++ ps, deserialize_of_scan hr, ⟨ps, rfl⟩, ?_, ?_, ?_⟩
  · intro k v h
    exact map_find_append_left m ps k v h
  · intro k h
    rw [map_contains_append, h]
    rfl
  · simp [map_size]

/-- C20, on the map `a -> 1` and the inputs `b=2&a=3`, which fails, and
`b=2`, which succeeds: `a -> 1` stays in both cases. -/
theorem deserialize_key_value_frame_witness :
    deserialize_key_value "b=2&a=3".toList '=' '&' [("a".toList, "1".toList)] =
      some (false, [("a".toList, "1".toList), ("b".toList, "2".toList)]) ∧
    deserialize_key_value "b=2".toList '=' '&' [("a".toList, "1".toList)] =
      some (true, [("a".toList, "1".toList), ("b".toList, "2".toList)]) ∧
    ∃ (b : Bool) (m' : StrMap),
      deserialize_key_value "b=2&a=3".toList '=' '&' [("a".toList, "1".toList)] = some (b, m') ∧
      (∃ ps, m' = [("a".toList, "1".toList)] ++ ps) ∧
      (∀ k v, map_find [("a".toList, "1".toList)] k = some v → map_find m' k = some v) ∧
      (∀ k, map_contains [("a".toList, "1".toList)] k = true → map_contains m' k = true) ∧
      map_size [("a".toList, "1".toList)] ≤ map_size m' :=
  ⟨by decide, by decide,
    deserialize_key_value_frame '=' '&' "b=2&a=3".toList [("a".toList, "1".toList)]⟩

/-! ## A trailing item separator -/

/-- A scan of an unread part that is not empty and does not end with
`item_sep` has the same outcome when one `item_sep` is appended, provided the
two separators differ. -/
theorem scan_append_item_sep {es is : Char} (hsep : es ≠ is) {rest : Str} {m : StrMap}
    {r : Bool × StrMap} (h : Scan es is rest m r) :
    rest ≠ [] → rest.getLast? ≠ some is → Scan es is (rest ++ [is]) m r := by
  induction h with
  | done m => intro hne _; exact absurd rfl hne
  | malformed rest m hne hes =>
    intro _ _
    refine Scan.malformed (rest ++ [is]) m (by simp) ?_
    intro hmem
    rcases List.mem_append.mp hmem with h | h
    · exact hes h
    · exact hsep (List.mem_singleton.mp h)
  | duplicate k t m hk hc =>
    intro _ _
    have := @Scan.duplicate es is k (t ++ [is]) m hk hc
    simpa using this
  | last k v m hk hv hc =>
    intro _ _
    have := Scan.more k v [] m (true, m ++ [(k, v)]) hk hv hc (Scan.done _)
    simpa using this
  | more k v t m r hk hv hc _ ih =>
    intro _ hlast
    have hlast2 : (k ++ es :: (v ++ is :: t)).getLast? = (is :: t).getLast? := by
      rw [show k ++ es :: (v ++ is :: t) = (k ++ es :: v) ++ (is :: t) by simp]
      exact List.getLast?_append_of_ne_nil _ (by simp)
    have htne : t ≠ [] := by
      intro ht
      subst ht
      rw [hlast2] at hlast
      simp at hlast
    have htlast : t.getLast? ≠ some is := by
      intro ht
      apply hlast
      rw [hlast2]
      rw [show is :: t = [is] ++ t by rfl, List.getLast?_append_of_ne_nil _ htne]
      exact ht
    have := Scan.more k v (t ++ [is]) m r hk hv hc (ih htne htlast)
    simpa using this

/-- C21: a single trailing item separator is ignored. For separators that
differ, every initial map and every non-empty input `s` that does not end with
`item_sep`, `deserialize_key_value` on `s` followed by one `item_sep` returns
the same boolean and the same map as on `s`, and both calls return. -/
theorem deserialize_key_value_trailing_item_sep (es is : Char) (hsep : es ≠ is) (s : Str)
    (m : StrMap) (hne : s ≠ []) (hlast : s.getLast? ≠ some is) :
    ∃ (b : Bool) (m' : StrMap), deserialize_key_value s es is m = some (b, m') ∧
      deserialize_key_value (s ++ [is]) es is m = some (b, m') := by
  obtain ⟨r, hr⟩ := scan_total es is s.length s m (Nat.le_refl _)
  exact ⟨r.1, r.2, deserialize_of_scan hr,
    deserialize_of_scan (scan_append_item_sep hsep hr hne hlast)⟩

/-- C21, on `a=b` and `a=b&`: both are accepted with the map `a -> b`. -/
theorem deserialize_key_value_trailing_item_sep_witness :
    '=' ≠ '&' ∧ "a=b".toList ≠ [] ∧ "a=b".toList.getLast? ≠ some '&' ∧
    deserialize_key_value "a=b".toList '=' '&' [] = some (true, [("a".toList, "b".toList)]) ∧
    deserialize_key_value "a=b&".toList '=' '&' [] = some (true, [("a".toList, "b".toList)]) ∧
    ∃ (b : Bool) (m' : StrMap), deserialize_key_value "a=b".toList '=' '&' [] = some (b, m') ∧
      deserialize_key_value ("a=b".toList ++ ['&']) '=' '&' [] = some (b, m') :=
  ⟨by decide, by decide, by decide, by decide, by decide,
    deserialize_key_value_trailing_item_sep '=' '&' (by decide) "a=b".toList []
      (by decide) (by decide)⟩

/-! ## `count_digits` on negative numbers -/

/-- C22: on every negative `n` the loop of `count_digits`, whose division
truncates toward zero, ends within the fuel of the entry point, and the result
is the number of base-10 digits of `|n|`: the `d` with
`10^(d-1) <= |n| < 10^d`, which is also `count_digits(-n)`. -/
theorem count_digits_negative (n : Int) (hn : n < 0) :
    ∃ d : Nat, count_digits n = some (d : Int) ∧
      d = (Nat.digits 10 n.natAbs).length ∧
      (10 : Int) ^ (d - 1) ≤ |n| ∧ |n| < (10 : Int) ^ d ∧
      count_digits (-n) = some (d : Int) := by
  have hpos : 0 < n.natAbs := Int.natAbs_pos.mpr (by omega)
  obtain ⟨b1, b2⟩ := digits_length_bounds n.natAbs hpos
  have habs : |n| = (n.natAbs : Int) := Int.abs_eq_natAbs n
  refine ⟨(Nat.digits 10 n.natAbs).length, count_digits_eq n, rfl, ?_, ?_, ?_⟩
  · rw [habs]; exact_mod_cast b1
  · rw [habs]; exact_mod_cast b2
  · rw [count_digits_eq, Int.natAbs_neg]

/-- C22, on -125, which has 3 digits, and on the least `int`, -2147483648,
which has 10. -/
theorem count_digits_negative_witness :
    ((-125 : Int) < 0 ∧ count_digits (-125) = some 3 ∧
      ∃ d : Nat, count_digits (-125) = some (d : Int) ∧
        d = (Nat.digits 10 (-125 : Int).natAbs).length ∧
        (10 : Int) ^ (d - 1) ≤ |(-125 : Int)| ∧ |(-125 : Int)| < (10 : Int) ^ d ∧
        count_digits (-(-125)) = some (d : Int)) ∧
    ((-2147483648 : Int) < 0 ∧ count_digits (-2147483648) = some 10) :=
  ⟨⟨by decide, by decide, count_digits_negative (-125) (by decide)⟩, by decide, by decide⟩

/-! ## Every number of the requested length is reached -/

/-- The table holds the character of the digit `d` at the index
`pick_of_digit d`; the character is a digit of value `d`, and it is `0` only
for `d = 0`. -/
theorem pick_of_digit_spec : ∀ d, d < 10 →
    dist_chars[pick_of_digit d]? = some (digit_char d) ∧ digit_char d ∈ dist_chars ∧
      (digit_char d).toNat - 48 = d ∧ (0 < d → [digit_char d] ≠ "0".toList) ∧
      pick_of_digit d ≤ 9 := by
  decide

theorem decimal_value_append_singleton (s : Str) (c : Char) :
    decimal_value (s ++ [c]) = decimal_value s * 10 + (c.toNat - 48) := by
  simp [decimal_value, List.foldl_append]

/-- The digits of a number, written most significant first, denote it. -/
theorem decimal_value_of_digits (l : List Nat) (hl : ∀ d ∈ l, d < 10) :
    decimal_value (l.reverse.map digit_char) = Nat.ofDigits 10 l := by
  induction l with
  | nil => simp [decimal_value]
  | cons d l ih =>
    have hd := (pick_of_digit_spec d (hl d (List.mem_cons_self _ _))).2.2.1
    rw [List.reverse_cons, List.map_append, List.map_singleton, decimal_value_append_singleton,
      ih (fun x hx => hl x (List.mem_cons_of_mem _ hx)), hd, Nat.ofDigits_cons]
    ring

/-- After the leading digit, the loop appends the characters of the digits
whose indexes it is given. -/
theorem random_digits_loop_append (len : Nat) :
    ∀ (rest : List Nat) (s : Str), (∀ d ∈ rest, d < 10) → rest.length < len →
      random_digits_loop len rest.length s (rest.map pick_of_digit) =
        .ok (s ++ rest.map digit_char) := by
  intro rest
  induction rest with
  | nil => intro s _ _; simp [random_digits_loop]
  | cons d rest ih =>
    intro s hd hlen
    simp only [List.length_cons] at hlen
    have hne : ¬ len - 1 = rest.length := by omega
    have hget := (pick_of_digit_spec d (hd d (List.mem_cons_self _ _))).1
    simp only [List.length_cons, List.map_cons, random_digits_loop, if_neg hne, hget]
    rw [ih (s ++ [digit_char d]) (fun x hx => hd x (List.mem_cons_of_mem _ hx)) (by omega)]
    simp

/-- On the picks of its digits, a digit list with a non-zero first digit is
built as it stands. -/
theorem random_digits_loop_of_digits (d1 : Nat) (rest : List Nat) (h1 : 0 < d1) (h1' : d1 < 10)
    (hrest : ∀ d ∈ rest, d < 10) :
    random_digits_loop (rest.length + 1) (rest.length + 1) []
        ((d1 :: rest).map pick_of_digit) = .ok ((d1 :: rest).map digit_char) := by
  obtain ⟨hget, _, _, hnz, _⟩ := pick_of_digit_spec d1 h1'
  have hlead : leading_digit (pick_of_digit d1 :: rest.map pick_of_digit) =
      .ok ([digit_char d1], rest.map pick_of_digit) := by
    simp only [leading_digit, hget, if_neg (hnz h1)]
  simp only [List.map_cons, random_digits_loop, Nat.add_sub_cancel, if_true, hlead]
  rw [random_digits_loop_append (rest.length + 1) rest [digit_char d1] hrest (by omega)]
  simp

/-- Every number of the requested length is reached, for the integer types
that are not character types: for every such type, every accepted length `L` and every `v` with `10^(L-1) <= v < 10^L`, there
is a sequence of picks, all in `0 .. 9`, on which
`random_number_of_length_n` returns `v`; the picks of the decimal digits of `v`
are such a sequence. -/
theorem random_number_of_length_n_reaches (T : IntType) (hT : T.is_char = false)
    (length_of_number : Nat) (d : Int) (hd : count_digits T.max = some d)
    (hpos : 0 < length_of_number) (hlt : (length_of_number : Int) < d) (v : Int)
    (h1 : (10 : Int) ^ (length_of_number - 1) ≤ v) (h2 : v < (10 : Int) ^ length_of_number) :
    ∃ picks : List Nat, (∀ p ∈ picks, p ≤ 9) ∧ picks = picks_of_number v.toNat ∧
      random_number_of_length_n T length_of_number picks = .ok v := by
  have hv0 : 0 ≤ v := le_trans (by positivity) h1
  obtain ⟨n, rfl⟩ := Int.eq_ofNat_of_zero_le hv0
  have b1 : 10 ^ (length_of_number - 1) ≤ n := by exact_mod_cast h1
  have b2 : n < 10 ^ length_of_number := by exact_mod_cast h2
  have hn : n ≠ 0 := by
    have : 0 < 10 ^ (length_of_number - 1) := Nat.pow_pos (by norm_num)
    omega
  have hlen : (Nat.digits 10 n).length = length_of_number :=
    (digits_length_unique n length_of_number b1 b2).symm
  have hdig : ∀ x ∈ Nat.digits 10 n, x < 10 := fun x hx => Nat.digits_lt_base (by norm_num) hx
  have hnil : Nat.digits 10 n ≠ [] := Nat.digits_ne_nil_iff_ne_zero.mpr hn
  have hlast := Nat.getLast_digit_ne_zero 10 hn
  -- the digits, most significant first
  obtain ⟨d1, rest, hrev⟩ : ∃ d1 rest, (Nat.digits 10 n).reverse = d1 :: rest := by
    cases hr : (Nat.digits 10 n).reverse with
    | nil => exact absurd (List.reverse_eq_nil_iff.mp hr) hnil
    | cons a l => exact ⟨a, l, rfl⟩
  have hd1 : d1 = (Nat.digits 10 n).getLast hnil := by
    have := List.head_reverse (l := Nat.digits 10 n) (by simpa using hnil)
    simp only [hrev, List.head_cons] at this
    exact this
  have hmem : ∀ x ∈ d1 :: rest, x < 10 := by
    intro x hx
    rw [← hrev] at hx
    exact hdig x (List.mem_reverse.mp hx)
  have hd1pos : 0 < d1 := by
    rw [hd1]
    exact Nat.pos_of_ne_zero hlast
  have hrl : rest.length + 1 = length_of_number := by
    have := congrArg List.length hrev
    simp only [List.length_reverse, List.length_cons] at this
    omega
  have hloop := random_digits_loop_of_digits d1 rest hd1pos (hmem d1 (List.mem_cons_self _ _))
    (fun x hx => hmem x (List.mem_cons_of_mem _ hx))
  rw [hrl, ← hrev] at hloop
  have hval : decimal_value ((Nat.digits 10 n).reverse.map digit_char) = n := by
    rw [decimal_value_of_digits _ hdig, Nat.ofDigits_digits]
  have hchars : ∀ c ∈ (Nat.digits 10 n).reverse.map digit_char, c ∈ dist_chars := by
    intro c hc
    obtain ⟨x, hx, rfl⟩ := List.mem_map.mp hc
    exact (pick_of_digit_spec x (hdig x (List.mem_reverse.mp hx))).2.1
  have hmax := pow_le_of_length_check T.max T.max_nonneg d length_of_number hd hlt
  have hfit : (decimal_value ((Nat.digits 10 n).reverse.map digit_char) : Int) ≤ T.max := by
    rw [hval]
    have : (n : Int) < (10 : Int) ^ length_of_number := by exact_mod_cast b2
    omega
  refine ⟨picks_of_number n, ?_, by simp, ?_⟩
  · intro p hp
    obtain ⟨x, hx, rfl⟩ := List.mem_map.mp hp
    exact (pick_of_digit_spec x (hdig x (List.mem_reverse.mp hx))).2.2.2.2
  · unfold random_number_of_length_n
    rw [hd]
    simp only
    rw [if_pos ⟨by omega, hpos⟩]
    unfold picks_of_number
    rw [hloop]
    simp only
    rw [stream_extract_number T hT _ hchars hfit, hval]

/-- The value 120 is reached with `int` and length 3: the picks 0, 1, 9 select
the digits `1`, `2`, `0`. -/
theorem random_number_of_length_n_reaches_witness :
    int32.is_char = false ∧ count_digits int32.max = some 10 ∧ 0 < 3 ∧
    ((3 : Nat) : Int) < 10 ∧ (10 : Int) ^ (3 - 1) ≤ 120 ∧ (120 : Int) < (10 : Int) ^ 3 ∧
    random_number_of_length_n int32 3 [0, 1, 9] = .ok 120 ∧
    ∃ picks : List Nat, (∀ p ∈ picks, p ≤ 9) ∧ picks = picks_of_number (120 : Int).toNat ∧
      random_number_of_length_n int32 3 picks = .ok 120 :=
  ⟨rfl, by decide, by decide, by decide, by decide, by decide, by decide,
    random_number_of_length_n_reaches int32 rfl 3 10 (by decide) (by decide) (by decide) 120
      (by decide) (by decide)⟩

/-- C23 fails on the code for the character types, for which the extraction
`ss_for_num >> return_num` reads one character and not a number: with
`unsigned char`, whose maximum 255 has 3 digits, the length 1 is accepted and
1 is a number of one digit, but no sequence of picks makes the function return
1, because the value returned is the code of a digit character other than
`0`. -/
theorem random_number_of_length_n_unsigned_char_misses :
    count_digits unsigned_char.max = some 3 ∧
    (10 : Int) ^ (1 - 1) ≤ 1 ∧ (1 : Int) < (10 : Int) ^ 1 ∧
    ¬ ∃ picks : List Nat, random_number_of_length_n unsigned_char 1 picks = .ok 1 := by
  refine ⟨by decide, by decide, by decide, ?_⟩
  rintro ⟨picks, h⟩
  obtain ⟨d, s, _, _, hpos, hloop, hr⟩ := random_number_of_length_n_ok h
  obtain ⟨_, hchars, c, rest, rfl, hc0⟩ := random_digits_loop_ok 1 hpos picks s hloop
  have hc := (dist_chars_digit (hchars c (List.mem_cons_self _ _))).2.2 hc0
  have hx : stream_extract unsigned_char (c :: rest) = (c.toNat : Int) := by
    simp [stream_extract, unsigned_char]
  rw [hx] at hr
  omega

/-! ## `random_string_of_length_n` on the empty alphabet -/

theorem random_string_loop_not_out_of_range (alphabet : Str) :
    ∀ (n : Nat) (s : Str) (picks : List Nat),
      random_string_loop alphabet n s picks ≠ .error .out_of_range := by
  intro n
  induction n with
  | zero => intro s picks; simp [random_string_loop]
  | succ n ih =>
    intro s picks
    cases picks with
    | nil => simp [random_string_loop]
    | cons p picks1 =>
      simp only [random_string_loop]
      cases hat : string_at alphabet p with
      | error e =>
        simp only [ne_eq, Except.error.injEq]
        intro he
        subst he
        unfold string_at at hat
        split at hat
        · simp at hat
        · split at hat <;> simp at hat
      | ok c => exact ih _ _

theorem random_string_loop_length (alphabet : Str) :
    ∀ (n : Nat) (s : Str) (picks : List Nat) (out : Str),
      random_string_loop alphabet n s picks = .ok out → out.length = s.length + n := by
  intro n
  induction n with
  | zero =>
    intro s picks out h
    simp only [random_string_loop, Except.ok.injEq] at h
    simp [← h]
  | succ n ih =>
    intro s picks out h
    cases picks with
    | nil => simp [random_string_loop] at h
    | cons p picks1 =>
      simp only [random_string_loop] at h
      cases hat : string_at alphabet p with
      | error e => rw [hat] at h; simp at h
      | ok c =>
        rw [hat] at h
        simp only at h
        rw [ih _ _ _ h]
        simp
        omega

/-- C24: `random_string_of_length_n` does not guard the empty alphabet. The
upper bound of the pick range, `alphabet.length() - 1` in unsigned arithmetic,
is the largest `size_t` for the empty alphabet, and no call ends with the
exception `std::out_of_range`. For every length above 0 that `reserve`
accepts and every first pick above 0 the lookup is outside the bounds of the
empty alphabet; with the pick 0 the lookup reads the null character that ends
the string, which is no character of the alphabet. Only for length 0 is the
result the empty string: then no lookup is made, and for every greater length
the result is not the empty string. A length above `max_size()` ends with
`std::length_error` for the empty alphabet as for any other. -/
theorem random_string_of_length_n_empty_alphabet :
    pick_upper_bound [] = 2 ^ 64 - 1 ∧
    (∀ (max_size length_of_rndstring : Nat) (alphabet : Str) (picks : List Nat),
      random_string_of_length_n max_size length_of_rndstring alphabet picks ≠
        .error .out_of_range) ∧
    (∀ (max_size length_of_rndstring p : Nat) (picks : List Nat), 0 < length_of_rndstring →
      length_of_rndstring ≤ max_size → 0 < p →
      random_string_of_length_n max_size length_of_rndstring [] (p :: picks) =
        .error .bad_index) ∧
    (∀ max_size : Nat, 0 < max_size →
      ∃ (length_of_rndstring p : Nat), 0 < length_of_rndstring ∧ p ≤ pick_upper_bound [] ∧
        random_string_of_length_n max_size length_of_rndstring [] [p] = .error .bad_index) ∧
    (∀ max_size : Nat, 0 < max_size →
      random_string_of_length_n max_size 1 [] [0] = .ok [Char.ofNat 0]) ∧
    (∀ (max_size : Nat) (picks : List Nat),
      random_string_of_length_n max_size 0 [] picks = .ok []) ∧
    (∀ (max_size length_of_rndstring : Nat) (picks : List Nat), 0 < length_of_rndstring →
      random_string_of_length_n max_size length_of_rndstring [] picks ≠ .ok []) ∧
    (∀ (max_size length_of_rndstring : Nat) (picks : List Nat),
      max_size < length_of_rndstring →
      random_string_of_length_n max_size length_of_rndstring [] picks =
        .error .length_error) := by
  have hbad : ∀ (max_size length_of_rndstring p : Nat) (picks : List Nat),
      0 < length_of_rndstring → length_of_rndstring ≤ max_size → 0 < p →
      random_string_of_length_n max_size length_of_rndstring [] (p :: picks) =
        .error .bad_index := by
    intro max_size len p picks hlen hmax hp
    obtain ⟨n, rfl⟩ : ∃ n, len = n + 1 := ⟨len - 1, by omega⟩
    have hat : string_at [] p = .error .bad_index := by
      simp [string_at]
      omega
    simp only [random_string_of_length_n, if_neg (Nat.not_lt.mpr hmax), random_string_loop, hat]
  refine ⟨by decide, ?_, hbad, ?_, ?_, ?_, ?_, ?_⟩
  · intro max_size len alphabet picks
    simp only [random_string_of_length_n]
    split
    · simp
    · exact random_string_loop_not_out_of_range alphabet len [] picks
  · intro max_size hmax
    exact ⟨1, 1, by decide, by decide, hbad max_size 1 1 [] (by decide) hmax (by decide)⟩
  · intro max_size hmax
    simp only [random_string_of_length_n, if_neg (Nat.not_lt.mpr hmax)]
    rfl
  · intro max_size picks
    simp only [random_string_of_length_n, if_neg (Nat.not_lt_zero max_size)]
    rfl
  · intro max_size len picks hlen h
    simp only [random_string_of_length_n] at h
    split at h
    · simp at h
    · have := random_string_loop_length [] len [] picks [] h
      simp at this
      omega
  · intro max_size len picks hmax
    simp only [random_string_of_length_n, if_pos hmax]

/-- C24, on the empty alphabet with length 1 and a `max_size()` of `2^62 - 1`:
the pick 5 is in the range of the distribution and its lookup is outside the
bounds. -/
theorem random_string_of_length_n_empty_alphabet_witness :
    0 < 1 ∧ 1 ≤ 2 ^ 62 - 1 ∧ 0 < 5 ∧ 5 ≤ pick_upper_bound [] ∧
    random_string_of_length_n (2 ^ 62 - 1) 1 [] [5] = .error .bad_index ∧
    random_string_of_length_n (2 ^ 62 - 1) 0 [] [5] = .ok [] :=
  ⟨by decide, by decide, by decide, by decide,
    random_string_of_length_n_empty_alphabet.2.2.1 (2 ^ 62 - 1) 1 5 [] (by decide) (by decide)
      (by decide),
    random_string_of_length_n_empty_alphabet.2.2.2.2.2.1 (2 ^ 62 - 1) [5]⟩

end xhanalib
